import Mathlib

/-!
Verification of the cppref symbol-index extractor and resolver.

Strings are embedded as `List Char` (`Str`); every function below is a direct
shallow embedding of the corresponding Python function from
`src/cppref/index.py` and `src/cppref/cli.py`, keeping the source's names
where Lean's lexical rules allow it.
-/

open List

namespace Cppref

/-- Strings of the Python program, embedded as lists of characters. -/
abbrev Str := List Char

/-- `SYMBOL_INDEX_PATH` from `src/cppref/index.py`. -/
def SYMBOL_INDEX_PATH : Str := "w/cpp/symbol_index.html".data

/-- Characters stripped by Python's `str.strip()` (the ASCII whitespace set). -/
def isPySpace (c : Char) : Bool :=
  c = ' ' || c = '\t' || c = '\n' || c = '\r' || c = '\x0b' || c = '\x0c'

/-- Python `s.lstrip()`. -/
def lstripWs (s : Str) : Str := s.dropWhile isPySpace

/-- Python `s.rstrip()`. -/
def rstripWs (s : Str) : Str := (s.reverse.dropWhile isPySpace).reverse

/-- Python `s.strip()`. -/
def stripWs (s : Str) : Str := rstripWs (lstripWs s)

/-- Python `s.startswith(p)`. -/
def startsWith : Str → Str → Bool
  | _, [] => true
  | [], _ :: _ => false
  | c :: s, d :: p => c = d && startsWith s p

/-- Python `s.split(sep)` for a single-character separator: the list of
separator-free chunks; always nonempty. -/
def splitOnChar (sep : Char) : Str → List Str
  | [] => [[]]
  | c :: rest =>
    match splitOnChar sep rest with
    | [] => [[]]
    | h :: t => if c = sep then [] :: h :: t else (c :: h) :: t

/-- Python `sep.join(parts)` for a single-character separator. -/
def joinWith (sep : Char) : List Str → Str
  | [] => []
  | [x] => x
  | x :: y :: r => x ++ sep :: joinWith sep (y :: r)

/-- Python `s.lstrip("/")`. -/
def lstripSlash (s : Str) : Str := s.dropWhile (· = '/')

/-- Python `s.split("#", 1)[0]`: everything before the first `#`. -/
def takeUntilHash (s : Str) : Str := s.takeWhile (· ≠ '#')

/-- Python `s.lower()` (ASCII case folding, as used on identifiers). -/
def toLowerStr (s : Str) : Str := s.map Char.toLower

/-- Index of the first occurrence of `c` in `s`, if any. -/
def findIdxAux (c : Char) : Str → Option Nat
  | [] => none
  | d :: s => if d = c then some 0 else (findIdxAux c s).map (· + 1)

/-- Python `s.find(c, idx)`: index of the first occurrence of `c` at
position `≥ idx`, if any (`str.find` returns `-1` in the `none` case, which
`_match_score` tests for immediately). -/
def findFrom (s : Str) (c : Char) (idx : Nat) : Option Nat :=
  (findIdxAux c (s.drop idx)).map (idx + ·)

/-- Python `pat in s` (contiguous substring test). -/
def hasSubstr (s pat : Str) : Bool :=
  if startsWith s pat then true
  else
    match s with
    | [] => false
    | _ :: t => hasSubstr t pat

/-- Python `<` on strings: lexicographic comparison by code point. -/
def strLt : Str → Str → Bool
  | [], [] => false
  | [], _ :: _ => true
  | _ :: _, [] => false
  | a :: as, b :: bs => if a < b then true else if b < a then false else strLt as bs

/-- Python `<=` on strings. -/
def strLe (a b : Str) : Bool := strLt a b || a = b

/-! ### `posixpath.normpath`

`src/cppref/index.py` canonicalizes paths with `posixpath.normpath`; the
embedding below follows CPython's `posixpath.normpath` (split on `/`,
process the components against a stack, rejoin). -/

/-- One step of `posixpath.normpath`'s component loop.  The accumulator is the
`new_comps` list kept in reverse (head = most recently appended). -/
def normStep (abs : Bool) (stack : List Str) (c : Str) : List Str :=
  if c = ([] : Str) ∨ c = ['.'] then stack
  else if c = ['.', '.'] then
    match stack with
    | [] => if abs then [] else [c]
    | top :: rest => if top = ['.', '.'] then c :: top :: rest else rest
  else c :: stack

/-- The component loop of `posixpath.normpath`. -/
def normComps (abs : Bool) (comps : List Str) : List Str :=
  (comps.foldl (normStep abs) []).reverse

/-- A path component that `normpath`'s loop passes through unchanged. -/
def CleanComp (x : Str) : Prop := x ≠ [] ∧ x ≠ ['.'] ∧ x ≠ ['.', '.']

/-- The number of leading slashes `posixpath.normpath` preserves (POSIX
allows one or two). -/
def normpathSlashes (p : Str) : Nat :=
  if startsWith p ['/', '/'] && !startsWith p ['/', '/', '/'] then 2
  else if startsWith p ['/'] then 1 else 0

/-- The rejoined path before `normpath`'s final `or '.'` fallback. -/
def normpathRes (p : Str) : Str :=
  List.replicate (normpathSlashes p) '/'
    ++ joinWith '/' (normComps (normpathSlashes p ≠ 0) (splitOnChar '/' p))

/-- CPython `posixpath.normpath`. -/
def normpath (p : Str) : Str :=
  if p = [] then ['.']
  else if normpathRes p = [] then ['.']
  else normpathRes p

/-- The input after `urllib.parse.urlsplit` consumes the scheme and the
netloc (which runs to the first `/`, `?` or `#`). -/
def urlsplitNetlocRest (s : Str) : Str :=
  (if startsWith s ("https://".data) then s.drop 8 else s.drop 7).dropWhile
    (fun c => c ≠ '/' && c ≠ '?' && c ≠ '#')

/-- The `path` component produced by `urllib.parse.urlsplit`, for inputs that
start with `http://` or `https://` (the only case in which
`_normalize_href` consults it): the remainder after the netloc, up to the
first `?` or `#`, empty unless it starts with `/`. -/
def urlsplitPath (s : Str) : Str :=
  match urlsplitNetlocRest s with
  | [] => []
  | c :: rest =>
    if c = '/' then (c :: rest).takeWhile (fun c => c ≠ '?' && c ≠ '#') else []

/-- The local `path` of `_normalize_href`: the href after fragment/whitespace
stripping, reduced to its path component when it is an absolute URL. -/
def hrefPath (href : Str) : Str :=
  if startsWith (stripWs (takeUntilHash href)) ("http://".data)
      || startsWith (stripWs (takeUntilHash href)) ("https://".data) then
    urlsplitPath (stripWs (takeUntilHash href))
  else stripWs (takeUntilHash href)

/-- The local `normalized` of `_normalize_href`: the path canonicalized by
`posixpath.normpath`, resolving relative paths against `/w/cpp/`
(`posixpath.join("/w/cpp/", path)` concatenates when `path` has no leading
slash). -/
def normalizedPath (href : Str) : Str :=
  if startsWith (hrefPath href) ['/'] then normpath (hrefPath href)
  else normpath ("/w/cpp/".data ++ hrefPath href)

/-- `_normalize_href` from `src/cppref/index.py`: strip the fragment and
whitespace, reject empty and `mailto:` hrefs, reduce absolute URLs to their
path, reject the alternate-namespace `mwiki/` paths, resolve relative paths
against `/w/cpp/`, canonicalize, and accept only paths under `/w/cpp/`,
returned with the leading slashes stripped. -/
def normalize_href (href : Str) : Option Str :=
  if stripWs (takeUntilHash href) = [] then none
  else if startsWith (stripWs (takeUntilHash href)) ("mailto:".data) then none
  else if startsWith (hrefPath href) ("mwiki/".data) then none
  else if startsWith (normalizedPath href) ("/w/cpp/".data) then
    some (lstripSlash (normalizedPath href))
  else none


/-- A url the extractor may store: non-empty, re-accepted by the normalizer,
and not the symbol-index page itself. -/
def UrlOk (u : Str) : Prop :=
  u ≠ [] ∧ (normalize_href u).isSome = true
    ∧ startsWith u ("w/cpp/symbol_index".data) = false

/-- `_clean_symbol` from `src/cppref/index.py`: `str.translate` with a table
deleting `(`, `)`, `<`, `>` (a deletion of every occurrence, modelled by
`List.filter`), followed by `str.strip()`. -/
def clean_symbol (s : Str) : Str :=
  if s = [] then s
  else stripWs (s.filter (fun c => !(c = '(' || c = ')' || c = '<' || c = '>')))

/-- Python `s.replace(p₁p₂, r)` for a two-character pattern and
one-character replacement (the only shape used by `_normalize_tail`):
left-to-right, non-overlapping. -/
def replace2to1 (p1 p2 r : Char) : Str → Str
  | [] => []
  | [c] => [c]
  | c1 :: c2 :: rest =>
    if c1 = p1 ∧ c2 = p2 then r :: replace2to1 p1 p2 r rest
    else c1 :: replace2to1 p1 p2 r (c2 :: rest)

/-- Python `"  " in s`. -/
def hasTwoSpaces : Str → Bool
  | c1 :: c2 :: rest => (c1 = ' ' && c2 = ' ') || hasTwoSpaces (c2 :: rest)
  | _ => false

/-- The `while "  " in tail: tail = tail.replace("  ", " ")` loop of
`_normalize_tail`.  Each iteration shortens the string, so `s.length` steps
of fuel always reach the loop's fixed point. -/
def collapseSpacesAux : Nat → Str → Str
  | 0, s => s
  | fuel + 1, s =>
    if hasTwoSpaces s then collapseSpacesAux fuel (replace2to1 ' ' ' ' ' ' s) else s

def collapseSpaces (s : Str) : Str := collapseSpacesAux s.length s

/-- `_normalize_tail` from `src/cppref/index.py`. -/
def normalize_tail (parts : List Str) : Str :=
  if parts = [] then []
  else
    let tail := stripWs (joinWith ' ' parts)
    let tail := replace2to1 '(' ' ' '(' tail
    let tail := replace2to1 ' ' ')' ')' tail
    collapseSpaces tail

/-- `IndexOption` from `src/cppref/index.py`. -/
structure IndexOption where
  label : Str
  url : Str
deriving DecidableEq, Repr

/-- `IndexEntry` from `src/cppref/index.py`. -/
structure IndexEntry where
  symbol : Str
  options : List IndexOption
deriving DecidableEq, Repr

/-! ### The insertion-ordered dict `self.entries`

Python dicts preserve insertion order; the parser's `entries` dict is
embedded as an association list in insertion order. -/

/-- Lookup in the association-list dict (`d.get(k)` / `d[k]`). -/
def dictGet (d : List (Str × α)) (k : Str) : Option α :=
  match d.find? (fun p => p.1 = k) with
  | none => none
  | some p => some p.2

/-- `options = entries.setdefault(sym, []); if all(existing.url != o.url or
existing.label != o.label for existing in options): options.append(o)` —
the in-place merge performed by `_finalize_pending`. -/
def dictAppendOption (d : List (Str × List IndexOption)) (k : Str) (o : IndexOption) :
    List (Str × List IndexOption) :=
  match d with
  | [] => [(k, [o])]
  | (k', opts) :: rest =>
    if k' = k then (k', if o ∈ opts then opts else opts ++ [o]) :: rest
    else (k', opts) :: dictAppendOption rest k o

/-- `d.setdefault(k, v)` restricted to its effect on the dict. -/
def dictSetdefault (d : List (Str × α)) (k : Str) (v : α) : List (Str × α) :=
  match d with
  | [] => [(k, v)]
  | (k', v') :: rest => if k' = k then (k', v') :: rest else (k', v') :: dictSetdefault rest k v

/-! ### The markup scanner `_SymbolIndexParser`

`html.parser.HTMLParser` drives the scanner by calling `handle_starttag`,
`handle_data` and `handle_endtag` on the token stream of the page; the token
stream is embedded as a list of `Event`s and each handler as a pure state
transformer. -/

/-- A token event delivered by the HTML tokenizer.  Attribute values are
optional (`<a href>` without a value gives `none`). -/
inductive Event where
  | starttag (tag : Str) (attrs : List (Str × Option Str))
  | data (text : Str)
  | endtag (tag : Str)
deriving DecidableEq, Repr

/-- The mutable fields of `_SymbolIndexParser`. -/
structure ParserState where
  current_href : Option Str
  current_text_parts : List Str
  pending_symbol : Option Str
  pending_label_base : Option Str
  pending_url : Option Str
  pending_tail_parts : List Str
  entries : List (Str × List IndexOption)
deriving Repr

/-- `_SymbolIndexParser.__init__`. -/
def initState : ParserState :=
  { current_href := none, current_text_parts := [], pending_symbol := none,
    pending_label_base := none, pending_url := none, pending_tail_parts := [],
    entries := [] }

/-- Reset the four `_pending_*` fields to their empty values. -/
def clearPending (s : ParserState) : ParserState :=
  { s with pending_symbol := none, pending_label_base := none,
           pending_url := none, pending_tail_parts := [] }

/-- `_SymbolIndexParser._finalize_pending`. -/
def finalize_pending (s : ParserState) : ParserState :=
  match s.pending_symbol, s.pending_url with
  | some sym, some url =>
    if sym = [] ∨ url = [] then clearPending s
    else
      let tail := normalize_tail s.pending_tail_parts
      let labelBase :=
        match s.pending_label_base with
        | some lb => if lb = [] then sym else lb
        | none => sym
      let label := if tail = [] then labelBase else labelBase ++ ' ' :: tail
      { clearPending s with
          entries := dictAppendOption s.entries sym ⟨label, url⟩ }
  | _, _ => clearPending s

/-- The first `href` attribute value, as computed by the loop in
`handle_starttag`; `none` both when the attribute is absent and when its
value is `None`. -/
def findHrefAttr (attrs : List (Str × Option Str)) : Option Str :=
  match attrs.find? (fun p => p.1 = "href".data) with
  | none => none
  | some p => p.2

/-- `_SymbolIndexParser.handle_starttag`. -/
def handle_starttag (tag : Str) (attrs : List (Str × Option Str)) (s : ParserState) :
    ParserState :=
  if tag = "br".data then finalize_pending s
  else if tag ≠ "a".data then s
  else
    let s := finalize_pending s
    match findHrefAttr attrs with
    | some v => if v ≠ [] then { s with current_href := some v, current_text_parts := [] } else s
    | none => s

/-- `_SymbolIndexParser.handle_data`. -/
def handle_data (text : Str) (s : ParserState) : ParserState :=
  match s.current_href with
  | none =>
    if s.pending_url = none then s
    else
      let t := stripWs text
      if t ≠ [] then { s with pending_tail_parts := s.pending_tail_parts ++ [t] } else s
  | some _ =>
    let t := stripWs text
    if t ≠ [] then { s with current_text_parts := s.current_text_parts ++ [t] } else s

/-- `_SymbolIndexParser.handle_endtag`. -/
def handle_endtag (tag : Str) (s : ParserState) : ParserState :=
  if tag ≠ "a".data then s
  else
    match s.current_href with
    | none => s
    | some href =>
      let raw_text := stripWs (s.current_text_parts.foldr (· ++ ·) [])
      let cleaned := clean_symbol raw_text
      let s1 := { s with current_href := none, current_text_parts := [] }
      match normalize_href href with
      | none => clearPending s1
      | some normalized =>
        if cleaned = [] ∨ normalized = []
            ∨ startsWith normalized ("w/cpp/symbol_index".data) then
          clearPending s1
        else
          { s1 with pending_symbol := some cleaned,
                    pending_label_base := some (if raw_text = [] then cleaned else raw_text),
                    pending_url := some normalized,
                    pending_tail_parts := [] }

/-- Dispatch one tokenizer event to the corresponding handler. -/
def processEvent (s : ParserState) : Event → ParserState
  | .starttag t attrs => handle_starttag t attrs s
  | .data t => handle_data t s
  | .endtag t => handle_endtag t s

/-- An entry of the parser's dict that respects the index invariant. -/
def EntryOk (p : Str × List IndexOption) : Prop :=
  p.1 ≠ [] ∧ p.2.Nodup ∧ ∀ o ∈ p.2, UrlOk o.url

/-- The parser-state invariant: every stored entry is well-formed, the dict's
keys are unique, and any pending url already passed the normalizer. -/
def StateOk (s : ParserState) : Prop :=
  (∀ p ∈ s.entries, EntryOk p)
    ∧ (s.entries.map Prod.fst).Nodup
    ∧ (∀ u, s.pending_url = some u → UrlOk u)

/-- Feed a whole token stream to a fresh parser and `close()` it
(`close` runs one final `_finalize_pending`). -/
def runEvents (evs : List Event) : ParserState :=
  finalize_pending (evs.foldl processEvent initState)

/-- Ordering used by `sorted(self.entries.items())`: Python compares the
`(key, value)` tuples, but the dict's keys are unique, so the comparison is
decided by the symbol.  `List.insertionSort` with a non-strict order is a
stable ascending sort, the semantics of Python's `sorted`. -/
def entryRel (a b : Str × List IndexOption) : Prop := strLe a.1 b.1 = true

instance : DecidableRel entryRel := fun a b =>
  inferInstanceAs (Decidable (strLe a.1 b.1 = true))

/-- `parse_symbol_index` from `src/cppref/index.py`, over a token stream. -/
def parse_symbol_index (evs : List Event) : List IndexEntry :=
  (insertionSort entryRel (runEvents evs).entries).map (fun p => ⟨p.1, p.2⟩)

/-- The Index invariant of the spec's data model: entries strictly sorted by
symbol, non-empty symbols, deduplicated options, and every url non-empty and
re-accepted by the normalizer. -/
def IndexOk (es : List IndexEntry) : Prop :=
  es.Pairwise (fun a b => strLt a.symbol b.symbol = true)
    ∧ ∀ e ∈ es, e.symbol ≠ [] ∧ e.options.Nodup
        ∧ ∀ o ∈ e.options, o.url ≠ [] ∧ (normalize_href o.url).isSome = true

/-! ### Tokenizer

`parse_symbol_index` feeds the markup to `html.parser.HTMLParser`, whose
lexer turns it into start-tag / data / end-tag events.  The tokenizer below
models that lexing for the well-formed subset the symbol-index page uses
(lower-case tags, double-quoted attribute values, no entity references). -/

/-- Attribute scanning inside a start tag, up to the closing `>`.
Returns the attributes and the input after the `>`. -/
def parseAttrsAux : Nat → Str → List (Str × Option Str) × Str
  | 0, s => ([], s)
  | fuel + 1, s =>
    let s := s.dropWhile (· = ' ')
    match s with
    | [] => ([], [])
    | '>' :: rest => ([], rest)
    | _ =>
      let name := s.takeWhile (fun c => c ≠ '=' && c ≠ ' ' && c ≠ '>')
      let s1 := s.drop name.length
      match s1 with
      | '=' :: '"' :: rest =>
        let v := rest.takeWhile (· ≠ '"')
        let (attrs, r) := parseAttrsAux fuel (rest.drop (v.length + 1))
        ((name, some v) :: attrs, r)
      | _ =>
        let (attrs, r) := parseAttrsAux fuel s1
        ((name, none) :: attrs, r)

/-- Event scanning: text runs up to `<`, `</name>` end tags, `<name ...>`
start tags. -/
def tokenizeAux : Nat → Str → List Event
  | 0, _ => []
  | fuel + 1, s =>
    match s with
    | [] => []
    | '<' :: '/' :: rest =>
      let name := rest.takeWhile (· ≠ '>')
      Event.endtag name :: tokenizeAux fuel (rest.drop (name.length + 1))
    | '<' :: rest =>
      let name := rest.takeWhile (fun c => c ≠ ' ' && c ≠ '>' && c ≠ '/')
      let (attrs, r) := parseAttrsAux (fuel + 1) (rest.drop name.length)
      Event.starttag name attrs :: tokenizeAux fuel r
    | _ =>
      let text := s.takeWhile (· ≠ '<')
      Event.data text :: tokenizeAux fuel (s.drop text.length)

/-- The token stream of a markup string. -/
def tokenize (s : Str) : List Event := tokenizeAux (s.length + 1) s

/-! ### `write_index` -/

/-- `BASE_URL` from `src/cppref/index.py`. -/
def BASE_URL : Str := "https://cppreference.com".data

/-- `INDEX_VERSION` from `src/cppref/index.py`. -/
def INDEX_VERSION : Nat := 1

/-- One iteration of `write_index`'s merge loop:
`options = merged.setdefault(entry.symbol, [])`, then append each
not-yet-present option. -/
def mergeEntriesStep (m : List (Str × List IndexOption)) (e : IndexEntry) :
    List (Str × List IndexOption) :=
  e.options.foldl (fun m o => dictAppendOption m e.symbol o) (dictSetdefault m e.symbol [])

/-- The JSON object `write_index` serializes (`index_time` is the
`datetime.utcnow()` string, passed here as a parameter). -/
structure Payload where
  index_version : Nat
  index_time : Str
  base_url : Str
  entries : List IndexEntry
deriving Repr

/-- `write_index` from `src/cppref/index.py`, up to the file write: the merge
of the given entries and the payload dict. -/
def write_index_payload (entries : List IndexEntry) (now : Str) : Payload :=
  { index_version := INDEX_VERSION, index_time := now, base_url := BASE_URL,
    entries := (insertionSort entryRel (entries.foldl mergeEntriesStep [])).map
      (fun p => ⟨p.1, p.2⟩) }

/-- JSON string-character escaping (the characters that occur in the index). -/
def jsonEscapeChar (c : Char) : Str := if c = '"' ∨ c = '\\' then ['\\', c] else [c]

/-- A JSON string literal. -/
def jsonStr (s : Str) : Str :=
  '"' :: s.foldr (fun c acc => jsonEscapeChar c ++ acc) ['"']

/-- Join rendered items with `", "`. -/
def joinComma : List Str → Str
  | [] => []
  | [x] => x
  | x :: y :: r => x ++ ',' :: ' ' :: joinComma (y :: r)

/-- Rendering of one option dict, keys in sorted order (`json.dumps`
with `sort_keys=True`). -/
def renderOption (o : IndexOption) : Str :=
  "\x7b\"label\": ".data ++ jsonStr o.label ++ ", \"url\": ".data ++ jsonStr o.url
    ++ "\x7d".data

/-- Rendering of one entry dict, keys in sorted order. -/
def renderEntryJson (e : IndexEntry) : Str :=
  "\x7b\"options\": [".data ++ joinComma (e.options.map renderOption)
    ++ "], \"symbol\": ".data ++ jsonStr e.symbol ++ "\x7d".data

/-- Serialization of the payload written by `write_index`: a single JSON
object with keys in sorted order (`base_url`, `entries`, `index_time`,
`index_version`), mirroring `json.dumps(payload, sort_keys=True)`. -/
def renderPayload (p : Payload) : Str :=
  "\x7b\"base_url\": ".data ++ jsonStr p.base_url
    ++ ", \"entries\": [".data ++ joinComma (p.entries.map renderEntryJson)
    ++ "], \"index_time\": ".data ++ jsonStr p.index_time
    ++ ", \"index_version\": ".data ++ (toString p.index_version).data
    ++ "\x7d".data

/-! ### `build_lookup` and the batch search path (`src/cppref/cli.py`) -/

/-- The body of `build_lookup`'s loop: `lookup.setdefault(entry.symbol,
entry.options)`, then, for `std::`-prefixed symbols, `lookup.setdefault(alias,
entry.options)` with the unqualified alias. -/
def lookupStep (lk : List (Str × List IndexOption)) (e : IndexEntry) :
    List (Str × List IndexOption) :=
  let lk := dictSetdefault lk e.symbol e.options
  if startsWith e.symbol "std::".data then
    dictSetdefault lk (e.symbol.drop 5) e.options
  else lk

/-- `build_lookup` from `src/cppref/index.py`. -/
def build_lookup (entries : List IndexEntry) : List (Str × List IndexOption) :=
  entries.foldl lookupStep []

/-- `_match_score`'s character loop: `for ch in query_l: pos =
symbol_l.find(ch, idx); ...`. -/
def scoreLoop (sl : Str) : Str → Nat → Int → Option Int
  | [], _, score => some score
  | c :: cs, idx, score =>
    match findFrom sl c idx with
    | none => none
    | some pos => scoreLoop sl cs (pos + 1) (score + pos)

/-- The list of positions visited by `_match_score`'s greedy left-to-right
walk: each query character is located at or after the position following the
previous match. -/
def greedyPositions (sl : Str) : Str → Nat → Option (List Nat)
  | [], _ => some []
  | c :: cs, idx =>
    match findFrom sl c idx with
    | none => none
    | some p => (greedyPositions sl cs (p + 1)).map (p :: ·)

/-- `_match_score` from `src/cppref/cli.py`. -/
def match_score (symbol query : Str) : Option Int :=
  if query = [] then some 0
  else
    match scoreLoop (toLowerStr symbol) (toLowerStr query) 0 0 with
    | none => none
    | some sc =>
      some (if hasSubstr (toLowerStr symbol) (toLowerStr query) then sc - 10 else sc)

/-- The sort key comparison of `_filter_entries`: Python tuple `<=` on
`(score, symbol)` (the payload is not part of the key). -/
def tupleLe {α : Type} (a b : Int × Str × α) : Bool :=
  if a.1 < b.1 then true else if b.1 < a.1 then false else strLe a.2.1 b.2.1

/-- `tupleLe` as a relation, for `scored.sort(key=lambda item: (item[0], item[1]))`. -/
def tupleRel {α : Type} (a b : Int × Str × α) : Prop := tupleLe a b = true

instance {α : Type} : DecidableRel (α := Int × Str × α) tupleRel := fun a b =>
  inferInstanceAs (Decidable (tupleLe a b = true))

/-- The body of `_filter_entries`'s scoring loop: keep `(score, symbol,
entry)` for the symbols that match. -/
def scoreEntry {α : Type} (query : Str) (p : Str × α) : Option (Int × Str × α) :=
  match match_score p.1 query with
  | none => none
  | some sc => some (sc, p.1, p.2)

/-- `_filter_entries` from `src/cppref/cli.py`. -/
def filter_entries {α : Type} (entries : List (Str × α)) (query : Str) : List (Str × α) :=
  (insertionSort tupleRel (entries.filterMap (scoreEntry query))).map (fun t => (t.2.1, t.2.2))

/-- The outcome of one pass through the batch search path: either a terminal
outcome or a hand-off to an external collaborator (the curses selector or
the `difflib` suggestion prompt). -/
inductive BatchOutcome where
  | usageError
  | resolved (url : Str)
  | interactiveRequired
  | interactiveSelect (options : List IndexOption)
  | suggestStage
deriving DecidableEq, Repr

/-- `choose_url` from `src/cppref/cli.py`: a single option resolves
immediately; several demand a TTY (`require_tty`) before the curses
selector runs. -/
def choose_url (options : List IndexOption) (stdinTty stdoutTty : Bool) : BatchOutcome :=
  match options with
  | [o] => .resolved o.url
  | _ =>
    if !(stdinTty && stdoutTty) then .interactiveRequired
    else .interactiveSelect options

/-- `run_search_non_interactive` from `src/cppref/cli.py`, up to the first
exact-lookup decision: strip the query, fail on empty, look it up, and
dispatch through `choose_url`; a missing or empty option list falls through
to the `difflib` suggestion stage. -/
def run_search_step (lookup : List (Str × List IndexOption)) (symbol : Str)
    (stdinTty stdoutTty : Bool) : BatchOutcome :=
  let sym := stripWs symbol
  if sym = [] then .usageError
  else
    match dictGet lookup sym with
    | some options =>
      if options ≠ [] then choose_url options stdinTty stdoutTty
      else .suggestStage
    | none => .suggestStage

/-! ## Order lemmas for the Python sort relations -/

theorem strLt_cons_iff {x y : Char} {xs ys : Str} :
    strLt (x :: xs) (y :: ys) = true ↔ x < y ∨ (x = y ∧ strLt xs ys = true) := by
  simp only [strLt]
  split_ifs with h1 h2
  · simp [h1]
  · constructor
    · intro h; cases h
    · rintro (h | ⟨rfl, -⟩)
      · exact absurd h h1
      · exact absurd h2 (lt_irrefl _)
  · have hxy : x = y := le_antisymm (not_lt.mp h2) (not_lt.mp h1)
    simp [h1, hxy]

theorem strLt_nil_right : ∀ a : Str, strLt a [] = false
  | [] => rfl
  | _ :: _ => rfl

theorem strLt_trans : ∀ (a b c : Str), strLt a b = true → strLt b c = true →
    strLt a c = true
  | a, [], _, hab, _ => by rw [strLt_nil_right a] at hab; cases hab
  | [], _ :: _, [], _, hbc => by simp [strLt] at hbc
  | [], _ :: _, _ :: _, _, _ => by simp [strLt]
  | _ :: _, _ :: _, [], _, hbc => by simp [strLt] at hbc
  | x :: xs, y :: ys, z :: zs, hab, hbc => by
    rw [strLt_cons_iff] at hab hbc ⊢
    rcases hab with h1 | ⟨rfl, h1⟩
    · rcases hbc with h2 | ⟨rfl, h2⟩
      · exact Or.inl (lt_trans h1 h2)
      · exact Or.inl h1
    · rcases hbc with h2 | ⟨rfl, h2⟩
      · exact Or.inl h2
      · exact Or.inr ⟨rfl, strLt_trans xs ys zs h1 h2⟩

theorem strLt_total : ∀ (a b : Str), strLt a b = true ∨ strLt b a = true ∨ a = b
  | [], [] => Or.inr (Or.inr rfl)
  | [], _ :: _ => Or.inl (by simp [strLt])
  | _ :: _, [] => Or.inr (Or.inl (by simp [strLt]))
  | x :: xs, y :: ys => by
    rcases lt_trichotomy x y with h | rfl | h
    · exact Or.inl (strLt_cons_iff.mpr (Or.inl h))
    · rcases strLt_total xs ys with h | h | rfl
      · exact Or.inl (strLt_cons_iff.mpr (Or.inr ⟨rfl, h⟩))
      · exact Or.inr (Or.inl (strLt_cons_iff.mpr (Or.inr ⟨rfl, h⟩)))
      · exact Or.inr (Or.inr rfl)
    · exact Or.inr (Or.inl (strLt_cons_iff.mpr (Or.inl h)))

theorem strLe_iff {a b : Str} : strLe a b = true ↔ strLt a b = true ∨ a = b := by
  simp [strLe]

theorem strLe_total (a b : Str) : strLe a b = true ∨ strLe b a = true := by
  rcases strLt_total a b with h | h | rfl
  · exact Or.inl (strLe_iff.mpr (Or.inl h))
  · exact Or.inr (strLe_iff.mpr (Or.inl h))
  · exact Or.inl (strLe_iff.mpr (Or.inr rfl))

theorem strLe_trans {a b c : Str} (hab : strLe a b = true) (hbc : strLe b c = true) :
    strLe a c = true := by
  rcases strLe_iff.mp hab with h1 | rfl
  · rcases strLe_iff.mp hbc with h2 | rfl
    · exact strLe_iff.mpr (Or.inl (strLt_trans _ _ _ h1 h2))
    · exact strLe_iff.mpr (Or.inl h1)
  · exact hbc

theorem strLt_of_strLe_of_ne {a b : Str} (h : strLe a b = true) (hne : a ≠ b) :
    strLt a b = true := (strLe_iff.mp h).resolve_right hne

theorem entryRel_total : ∀ a b : Str × List IndexOption, entryRel a b ∨ entryRel b a :=
  fun a b => strLe_total a.1 b.1

theorem entryRel_trans : ∀ a b c : Str × List IndexOption,
    entryRel a b → entryRel b c → entryRel a c :=
  fun _ _ _ hab hbc => strLe_trans hab hbc

theorem tupleLe_iff {α : Type} {a b : Int × Str × α} :
    tupleLe a b = true ↔ a.1 < b.1 ∨ (a.1 = b.1 ∧ strLe a.2.1 b.2.1 = true) := by
  simp only [tupleLe]
  split_ifs with h1 h2
  · simp [h1]
  · constructor
    · intro h; cases h
    · rintro (h | ⟨h, -⟩)
      · exact absurd h h1
      · exact absurd h2 (h ▸ lt_irrefl _)
  · have hab : a.1 = b.1 := le_antisymm (not_lt.mp h2) (not_lt.mp h1)
    simp [h1, hab]

theorem tupleRel_total {α : Type} : ∀ a b : Int × Str × α, tupleRel a b ∨ tupleRel b a := by
  intro a b
  rcases lt_trichotomy a.1 b.1 with h | h | h
  · exact Or.inl (tupleLe_iff.mpr (Or.inl h))
  · rcases strLe_total a.2.1 b.2.1 with h' | h'
    · exact Or.inl (tupleLe_iff.mpr (Or.inr ⟨h, h'⟩))
    · exact Or.inr (tupleLe_iff.mpr (Or.inr ⟨h.symm, h'⟩))
  · exact Or.inr (tupleLe_iff.mpr (Or.inl h))

theorem tupleRel_trans {α : Type} : ∀ a b c : Int × Str × α,
    tupleRel a b → tupleRel b c → tupleRel a c := by
  intro a b c hab hbc
  rcases tupleLe_iff.mp hab with h1 | ⟨h1, h1'⟩ <;>
    rcases tupleLe_iff.mp hbc with h2 | ⟨h2, h2'⟩
  · exact tupleLe_iff.mpr (Or.inl (lt_trans h1 h2))
  · exact tupleLe_iff.mpr (Or.inl (h2 ▸ h1))
  · exact tupleLe_iff.mpr (Or.inl (h1 ▸ h2))
  · exact tupleLe_iff.mpr (Or.inr ⟨h1.trans h2, strLe_trans h1' h2'⟩)

/-! ## Dict lemmas -/

theorem dictGet_nil {α : Type} (k : Str) : dictGet ([] : List (Str × α)) k = none := rfl

theorem dictGet_cons {α : Type} (k' k : Str) (v : α) (rest : List (Str × α)) :
    dictGet ((k', v) :: rest) k = if k' = k then some v else dictGet rest k := by
  by_cases h : k' = k <;> simp [dictGet, List.find?, h]

theorem dictGet_setdefault_of_some {α : Type} (d : List (Str × α)) (k k' : Str) (v : α)
    (v' : α) (h : dictGet d k = some v) :
    dictGet (dictSetdefault d k' v') k = some v := by
  induction d with
  | nil => simp [dictGet_nil] at h
  | cons p rest ih =>
    obtain ⟨pk, pv⟩ := p
    rw [dictGet_cons] at h
    by_cases hk : pk = k
    · subst hk
      simp at h
      subst h
      by_cases hk' : pk = k' <;> simp [dictSetdefault, hk', dictGet_cons]
    · rw [if_neg hk] at h
      by_cases hk' : pk = k'
      · subst hk'
        simp [dictSetdefault, dictGet_cons, hk, h]
      · simp [dictSetdefault, hk', dictGet_cons, hk, ih h]

theorem dictGet_setdefault_of_none {α : Type} (d : List (Str × α)) (k : Str) (v : α)
    (h : dictGet d k = none) : dictGet (dictSetdefault d k v) k = some v := by
  induction d with
  | nil => simp [dictSetdefault, dictGet_cons]
  | cons p rest ih =>
    obtain ⟨pk, pv⟩ := p
    rw [dictGet_cons] at h
    by_cases hk : pk = k
    · simp [hk] at h
    · rw [if_neg hk] at h
      simp [dictSetdefault, hk, dictGet_cons, ih h]

theorem dictGet_lookupStep_of_some (lk : List (Str × List IndexOption)) (e : IndexEntry)
    (k : Str) (v : List IndexOption) (h : dictGet lk k = some v) :
    dictGet (lookupStep lk e) k = some v := by
  unfold lookupStep
  split_ifs <;> simp [dictGet_setdefault_of_some, h]

theorem dictGet_foldl_lookupStep_of_some (es : List IndexEntry)
    (lk : List (Str × List IndexOption)) (k : Str) (v : List IndexOption)
    (h : dictGet lk k = some v) : dictGet (es.foldl lookupStep lk) k = some v := by
  induction es generalizing lk with
  | nil => exact h
  | cons e rest ih => exact ih _ (dictGet_lookupStep_of_some _ _ _ _ h)

/-! ## Claim C3 -/

/-- C3 counterexample: with the index in its sorted order
`[std::vector, vector]`, `build_lookup` maps the key `vector` to the
`std::vector` entry's options — not, as the claim states, to the bare
`vector` entry's own options. -/
theorem claim3_counterexample :
    dictGet (build_lookup [⟨"std::vector".data, [⟨"lq".data, "w/cpp/container/vector".data⟩]⟩,
                           ⟨"vector".data, [⟨"lb".data, "w/cpp/other/vector".data⟩]⟩])
        "vector".data = some [⟨"lq".data, "w/cpp/container/vector".data⟩]
    ∧ ([⟨"lq".data, "w/cpp/container/vector".data⟩] : List IndexOption)
        ≠ [⟨"lb".data, "w/cpp/other/vector".data⟩] := by
  constructor <;> decide

/-- C3 (amended): for an entry list containing only `std::vector`, the lookup
table maps both `std::vector` and `vector` to that entry's options.  In
general a key, once registered, is never overridden by later entries or
aliases (first-registered wins).  Consequently, in the sorted order produced
by the index — where `std::vector` precedes the bare `vector` entry — the key
`vector` maps to the `std::vector` entry's options, and the bare `vector`
entry's own options are not re-registered. -/
theorem claim3_amended :
    (∀ opts : List IndexOption,
        dictGet (build_lookup [⟨"std::vector".data, opts⟩]) "std::vector".data = some opts
        ∧ dictGet (build_lookup [⟨"std::vector".data, opts⟩]) "vector".data = some opts)
    ∧ (∀ (es1 es2 : List IndexEntry) (k : Str) (v : List IndexOption),
        dictGet (build_lookup es1) k = some v →
        dictGet (build_lookup (es1 ++ es2)) k = some v)
    ∧ (∀ optsQ optsB : List IndexOption,
        dictGet (build_lookup [⟨"std::vector".data, optsQ⟩, ⟨"vector".data, optsB⟩])
          "vector".data = some optsQ) := by
  refine ⟨fun opts => ⟨rfl, rfl⟩, ?_, fun optsQ optsB => rfl⟩
  intro es1 es2 k v h
  unfold build_lookup at h ⊢
  rw [List.foldl_append]
  exact dictGet_foldl_lookupStep_of_some _ _ _ _ h

/-- Witness for the amended C3 at concrete inputs. -/
theorem claim3_witness :
    dictGet (build_lookup ([⟨"std::vector".data, [⟨"l".data, "u".data⟩]⟩]
        ++ [⟨"x".data, ([] : List IndexOption)⟩])) "vector".data
      = some [⟨"l".data, "u".data⟩] :=
  claim3_amended.2.1 [⟨"std::vector".data, [⟨"l".data, "u".data⟩]⟩]
    [⟨"x".data, []⟩] "vector".data [⟨"l".data, "u".data⟩] (by decide)

/-! ## Claim C9 -/

/-- C9: in the batch resolution path, an all-whitespace query fails with
`UsageError` independently of the loaded lookup table (no lookup is
consulted); an exact match with a single option resolves to its url for any
TTY configuration; an exact match with two or more options fails with
`InteractiveRequired` when stdin and stdout are not both TTYs. -/
theorem claim9 :
    (∀ (lookup lookup' : List (Str × List IndexOption)) (symbol : Str) (tin tout : Bool),
        stripWs symbol = [] →
        run_search_step lookup symbol tin tout = .usageError
        ∧ run_search_step lookup symbol tin tout = run_search_step lookup' symbol tin tout)
    ∧ (∀ (lookup : List (Str × List IndexOption)) (symbol : Str) (tin tout : Bool)
        (o : IndexOption),
        stripWs symbol ≠ [] →
        dictGet lookup (stripWs symbol) = some [o] →
        run_search_step lookup symbol tin tout = .resolved o.url)
    ∧ (∀ (lookup : List (Str × List IndexOption)) (symbol : Str) (tin tout : Bool)
        (opts : List IndexOption),
        stripWs symbol ≠ [] →
        dictGet lookup (stripWs symbol) = some opts → 2 ≤ opts.length →
        ¬(tin = true ∧ tout = true) →
        run_search_step lookup symbol tin tout = .interactiveRequired) := by
  refine ⟨?_, ?_, ?_⟩
  · intro lookup lookup' symbol tin tout h
    constructor <;> simp [run_search_step, h]
  · intro lookup symbol tin tout o h hget
    simp [run_search_step, h, hget, choose_url]
  · intro lookup symbol tin tout opts h hget hlen htty
    have htty' : (tin && tout) = false := by
      cases tin <;> cases tout <;> simp_all
    obtain ⟨o1, o2, rest, rfl⟩ : ∃ o1 o2 rest, opts = o1 :: o2 :: rest := by
      match opts, hlen with
      | o1 :: o2 :: rest, _ => exact ⟨o1, o2, rest, rfl⟩
    simp [run_search_step, h, hget, choose_url, htty']

/-- Witness for C9 at concrete inputs. -/
theorem claim9_witness :
    run_search_step [("v".data, [⟨"l".data, "u".data⟩])] "  ".data true true = .usageError
    ∧ run_search_step [("v".data, [⟨"l".data, "u".data⟩])] " v ".data false false
        = .resolved "u".data
    ∧ run_search_step [("v".data, [⟨"l1".data, "u1".data⟩, ⟨"l2".data, "u2".data⟩])]
        "v".data false true = .interactiveRequired :=
  ⟨(claim9.1 _ [] "  ".data true true (by decide)).1,
   claim9.2.1 _ " v ".data false false ⟨"l".data, "u".data⟩ (by decide) (by decide),
   claim9.2.2 _ "v".data false true [⟨"l1".data, "u1".data⟩, ⟨"l2".data, "u2".data⟩]
     (by decide) (by decide) (by decide) (by simp)⟩

/-! ## Claim C1 -/

/-- C1 counterexample: on the claimed markup the stored url is *not* the
original href — `_normalize_href` resolves the relative href
`w/cpp/container/vector` against the `/w/cpp/` root, storing
`w/cpp/w/cpp/container/vector`. -/
theorem claim1_counterexample :
    parse_symbol_index (tokenize "<a href=\"w/cpp/container/vector\">vector</a><br>".data)
      ≠ [⟨"vector".data, [⟨"vector".data, "w/cpp/container/vector".data⟩]⟩]
    ∧ parse_symbol_index (tokenize "<a href=\"w/cpp/container/vector\">vector</a><br>".data)
      = [⟨"vector".data, [⟨"vector".data, "w/cpp/w/cpp/container/vector".data⟩]⟩] := by
  constructor <;> decide

/-- C1 (amended): the markup `<a href="/w/cpp/container/vector">vector</a><br>`
(href an absolute path) yields exactly one Entry
`{symbol: "vector", options: [{label: "vector", url: "w/cpp/container/vector"}]}`;
with the original relative href `w/cpp/container/vector` the single stored url
is instead the re-rooted `w/cpp/w/cpp/container/vector`, not the original
href. -/
theorem claim1_amended :
    parse_symbol_index (tokenize "<a href=\"/w/cpp/container/vector\">vector</a><br>".data)
      = [⟨"vector".data, [⟨"vector".data, "w/cpp/container/vector".data⟩]⟩]
    ∧ parse_symbol_index (tokenize "<a href=\"w/cpp/container/vector\">vector</a><br>".data)
      = [⟨"vector".data, [⟨"vector".data, "w/cpp/w/cpp/container/vector".data⟩]⟩] := by
  constructor <;> decide

/-! ## Claim C10 -/

/-- C10: `_clean_symbol` deletes every occurrence of `(`, `)`, `<`, `>`
anywhere in the text and then trims whitespace; anchors whose inner texts
clean to the same symbol (e.g. `operator()` and `operator<<`) are merged
under a single entry while each option label keeps the raw uncleaned text;
and `handle_endtag` stores the cleaned text as the pending symbol but the
raw text as the pending label base. -/
theorem claim10 :
    (∀ t : Str, clean_symbol t
        = stripWs (t.filter (fun c => decide ¬(c = '(' ∨ c = ')' ∨ c = '<' ∨ c = '>'))))
    ∧ (parse_symbol_index
        [.starttag "a".data [("href".data, some "/w/cpp/language/operators".data)],
         .data "operator()".data, .endtag "a".data, .starttag "br".data [],
         .starttag "a".data [("href".data, some "/w/cpp/language/operator_ltlt".data)],
         .data "operator<<".data, .endtag "a".data, .starttag "br".data []]
        = [⟨"operator".data,
            [⟨"operator()".data, "w/cpp/language/operators".data⟩,
             ⟨"operator<<".data, "w/cpp/language/operator_ltlt".data⟩]⟩])
    ∧ (∀ (s : ParserState) (href n : Str),
        s.current_href = some href →
        normalize_href href = some n → n ≠ [] →
        startsWith n "w/cpp/symbol_index".data = false →
        clean_symbol (stripWs (s.current_text_parts.foldr (· ++ ·) [])) ≠ [] →
        (handle_endtag "a".data s).pending_symbol
            = some (clean_symbol (stripWs (s.current_text_parts.foldr (· ++ ·) [])))
        ∧ (handle_endtag "a".data s).pending_label_base
            = some (stripWs (s.current_text_parts.foldr (· ++ ·) []))) := by
  refine ⟨?_, by decide, ?_⟩
  · intro t
    cases t with
    | nil => rfl
    | cons c cs =>
      rw [clean_symbol, if_neg (by simp)]
      congr 1
      apply List.filter_congr
      intro a _
      simp [Bool.and_assoc]
  · intro s href n hhref hnorm hne hself hcl
    have hraw : stripWs (s.current_text_parts.foldr (· ++ ·) []) ≠ [] := by
      intro h
      rw [h] at hcl
      exact hcl rfl
    constructor <;>
      simp [handle_endtag, hhref, hnorm, hne, hself, hcl, hraw]

/-- Witness for C10 at a concrete parser state. -/
theorem claim10_witness :
    (handle_endtag "a".data
        { initState with current_href := some "/w/cpp/utility".data,
                         current_text_parts := ["operator()".data] }).pending_symbol
      = some "operator".data := by
  have h := (claim10.2.2
    { initState with current_href := some "/w/cpp/utility".data,
                     current_text_parts := ["operator()".data] }
    "/w/cpp/utility".data "w/cpp/utility".data (by decide) (by decide) (by decide)
    (by decide) (by decide)).1
  rw [h]
  decide

/-! ## Claim C6 -/

theorem scoreEntry_spec {α : Type} {q : Str} {p : Str × α} {t : Int × Str × α}
    (h : scoreEntry q p = some t) : match_score t.2.1 q = some t.1 := by
  unfold scoreEntry at h
  cases hms : match_score p.1 q with
  | none => rw [hms] at h; cases h
  | some sc => rw [hms] at h; cases h; exact hms

/-- C6: for the candidates `["abc", "abd", "xabc"]` and query `"ab"` the
scores are `-9`, `-9`, `-7` and `_filter_entries` returns them in the order
`["abc", "abd", "xabc"]`; in general the result of `_filter_entries` is
sorted ascending by the pair `(score, candidate string)` — lower score
first, lexicographic tie-break on the candidate — which determines the order
uniquely for equal-scoring distinct candidates. -/
theorem claim6 :
    (match_score "abc".data "ab".data = some (-9)
      ∧ match_score "abd".data "ab".data = some (-9)
      ∧ match_score "xabc".data "ab".data = some (-7)
      ∧ filter_entries [("abc".data, 1), ("abd".data, 2), ("xabc".data, 3)] "ab".data
          = [("abc".data, 1), ("abd".data, 2), ("xabc".data, 3)])
    ∧ (∀ (α : Type) (entries : List (Str × α)) (q : Str),
        (filter_entries entries q).Pairwise (fun a b =>
          ∀ sa sb : Int, match_score a.1 q = some sa → match_score b.1 q = some sb →
            sa < sb ∨ (sa = sb ∧ strLe a.1 b.1 = true))) := by
  refine ⟨by refine ⟨by decide, by decide, by decide, by decide⟩, ?_⟩
  intro α entries q
  haveI : IsTotal (Int × Str × α) tupleRel := ⟨tupleRel_total⟩
  haveI : IsTrans (Int × Str × α) tupleRel := ⟨tupleRel_trans⟩
  unfold filter_entries
  rw [List.pairwise_map]
  have hperm := List.perm_insertionSort tupleRel (entries.filterMap (scoreEntry q))
  refine List.Pairwise.imp_of_mem ?_
    (List.sorted_insertionSort tupleRel (entries.filterMap (scoreEntry q)))
  intro a b ha hb hab sa sb hsa hsb
  obtain ⟨pa, -, hpa⟩ := List.mem_filterMap.mp (hperm.mem_iff.mp ha)
  obtain ⟨pb, -, hpb⟩ := List.mem_filterMap.mp (hperm.mem_iff.mp hb)
  have ha' := scoreEntry_spec hpa
  have hb' := scoreEntry_spec hpb
  rw [hsa] at ha'
  rw [hsb] at hb'
  cases ha'
  cases hb'
  rcases tupleLe_iff.mp hab with h | ⟨h, h'⟩
  · exact Or.inl h
  · exact Or.inr ⟨h, h'⟩

/-! ## Claim C8 -/

/-- C8: rebuilding the index from the same token stream twice yields the same
payload except for the `index_time` field, and the serialized output is
byte-identical apart from the timestamp substring: both renderings are
`pre ++ jsonStr t ++ post` for the same `pre`/`post`. -/
theorem claim8 : ∀ (evs : List Event) (t1 t2 : Str),
    (write_index_payload (parse_symbol_index evs) t1).index_version
        = (write_index_payload (parse_symbol_index evs) t2).index_version
    ∧ (write_index_payload (parse_symbol_index evs) t1).base_url
        = (write_index_payload (parse_symbol_index evs) t2).base_url
    ∧ (write_index_payload (parse_symbol_index evs) t1).entries
        = (write_index_payload (parse_symbol_index evs) t2).entries
    ∧ ∃ pre post,
        renderPayload (write_index_payload (parse_symbol_index evs) t1)
            = pre ++ jsonStr t1 ++ post
        ∧ renderPayload (write_index_payload (parse_symbol_index evs) t2)
            = pre ++ jsonStr t2 ++ post := by
  intro evs t1 t2
  refine ⟨rfl, rfl, rfl,
    "\x7b\"base_url\": ".data ++ jsonStr BASE_URL ++ ", \"entries\": [".data
      ++ joinComma ((write_index_payload (parse_symbol_index evs) t1).entries.map
            renderEntryJson)
      ++ "], \"index_time\": ".data,
    ", \"index_version\": ".data ++ (toString INDEX_VERSION).data ++ "\x7d".data,
    ?_, ?_⟩ <;>
  simp [renderPayload, write_index_payload, List.append_assoc]

/-! ## Claim C5 -/

theorem optionMap_eq_none {β γ : Type} {f : β → γ} {x : Option β} :
    x.map f = none ↔ x = none := by cases x <;> simp

theorem findIdxAux_none {c : Char} : ∀ {s : Str}, findIdxAux c s = none ↔ c ∉ s := by
  intro s
  induction s with
  | nil => simp [findIdxAux]
  | cons d t ih =>
    by_cases h : d = c
    · subst h
      simp [findIdxAux]
    · rw [findIdxAux, if_neg h, optionMap_eq_none, ih]
      constructor
      · intro hnt hmem
        rcases List.mem_cons.mp hmem with hh | hmem'
        · exact h hh.symm
        · exact hnt hmem'
      · intro hmem ht
        exact hmem (List.mem_cons_of_mem d ht)

theorem findIdxAux_some {c : Char} : ∀ {s : Str} {j : Nat}, findIdxAux c s = some j →
    ∃ A B, s = A ++ c :: B ∧ c ∉ A ∧ A.length = j := by
  intro s
  induction s with
  | nil => intro j h; cases h
  | cons d t ih =>
    intro j h
    by_cases hd : d = c
    · subst hd
      rw [findIdxAux, if_pos rfl] at h
      cases h
      exact ⟨[], t, rfl, by simp, rfl⟩
    · rw [findIdxAux, if_neg hd] at h
      cases hj : findIdxAux c t with
      | none => rw [hj] at h; cases h
      | some j' =>
        rw [hj] at h
        cases h
        obtain ⟨A, B, rfl, hA, rfl⟩ := ih hj
        refine ⟨d :: A, B, rfl, ?_, rfl⟩
        simp only [List.mem_cons]
        rintro (hh | hh)
        · exact hd hh.symm
        · exact hA hh

theorem findFrom_none {s : Str} {c : Char} {idx : Nat} :
    findFrom s c idx = none ↔ c ∉ s.drop idx := by
  rw [findFrom, optionMap_eq_none, findIdxAux_none]

theorem findFrom_some {s : Str} {c : Char} {idx p : Nat} (h : findFrom s c idx = some p) :
    ∃ A, s.drop idx = A ++ c :: s.drop (p + 1) ∧ c ∉ A ∧ p = idx + A.length := by
  rw [findFrom] at h
  cases hj : findIdxAux c (s.drop idx) with
  | none => rw [hj] at h; cases h
  | some j =>
    rw [hj] at h
    simp only [Option.map_some'] at h
    cases h
    obtain ⟨A, B, hsplit, hA, rfl⟩ := findIdxAux_some hj
    refine ⟨A, ?_, hA, rfl⟩
    have h1 : (s.drop idx).drop (A.length + 1) = B := by
      rw [hsplit]
      have h2 : A ++ c :: B = (A ++ [c]) ++ B := by simp
      have hlen : A.length + 1 = (A ++ [c]).length := by simp
      rw [h2, hlen, List.drop_left]
    rw [List.drop_drop] at h1
    have h3 : idx + (A.length + 1) = idx + A.length + 1 := by omega
    rw [h3] at h1
    rw [h1]
    exact hsplit

theorem cons_sublist_middle_iff {c : Char} {cs B : Str} : ∀ {A : Str}, c ∉ A →
    ((c :: cs <+ A ++ c :: B) ↔ cs <+ B) := by
  intro A
  induction A with
  | nil =>
    intro _
    simp only [List.nil_append]
    constructor
    · intro h
      cases h with
      | cons _ h' => exact List.sublist_of_cons_sublist h'
      | cons₂ _ h' => exact h'
    · intro h
      exact h.cons₂ c
  | cons a A ih =>
    intro hA
    have hca : c ≠ a := fun h => hA (h ▸ List.mem_cons_self a A)
    have hA' : c ∉ A := fun h => hA (List.mem_cons_of_mem a h)
    constructor
    · intro h
      cases h with
      | cons _ h' => exact (ih hA').mp h'
      | cons₂ _ h' => exact absurd rfl hca
    · intro h
      exact ((ih hA').mpr h).cons a

theorem scoreLoop_none_iff (sl : Str) : ∀ (q : Str) (idx : Nat) (acc : Int),
    (scoreLoop sl q idx acc = none ↔ ¬ (q <+ sl.drop idx))
  | [], idx, acc => by simp [scoreLoop]
  | c :: cs, idx, acc => by
    rw [scoreLoop]
    cases hf : findFrom sl c idx with
    | none =>
      dsimp only
      have hc : c ∉ sl.drop idx := findFrom_none.mp hf
      exact iff_of_true rfl (fun h => hc (h.subset (List.mem_cons_self c cs)))
    | some p =>
      dsimp only
      obtain ⟨A, hsplit, hA, rfl⟩ := findFrom_some hf
      rw [hsplit, cons_sublist_middle_iff hA]
      exact scoreLoop_none_iff sl cs (idx + A.length + 1)
        (acc + ((idx + A.length : Nat) : Int))

theorem scoreLoop_eq (sl : Str) : ∀ (q : Str) (idx : Nat) (acc : Int),
    scoreLoop sl q idx acc
      = (greedyPositions sl q idx).map
          (fun ps => acc + (ps.map (fun n : Nat => (n : Int))).sum)
  | [], idx, acc => by simp [scoreLoop, greedyPositions]
  | c :: cs, idx, acc => by
    rw [scoreLoop, greedyPositions]
    cases hf : findFrom sl c idx with
    | none => rfl
    | some p =>
      dsimp only
      rw [scoreLoop_eq sl cs (p + 1) (acc + (p : Int))]
      cases greedyPositions sl cs (p + 1) with
      | none => rfl
      | some ps => simp [add_assoc]

theorem startsWith_iff_append : ∀ {s p : Str}, startsWith s p = true ↔ ∃ r, s = p ++ r := by
  intro s p
  induction p generalizing s with
  | nil => simp [startsWith]
  | cons d pt ih =>
    cases s with
    | nil =>
      simp only [startsWith]
      constructor
      · intro h; cases h
      · rintro ⟨r, h⟩; cases h
    | cons c st =>
      simp only [startsWith, Bool.and_eq_true, decide_eq_true_eq]
      rw [ih]
      constructor
      · rintro ⟨rfl, r, rfl⟩
        exact ⟨r, rfl⟩
      · rintro ⟨r, h⟩
        cases h
        exact ⟨rfl, r, rfl⟩

theorem hasSubstr_iff : ∀ {s pat : Str},
    hasSubstr s pat = true ↔ ∃ pre post, s = pre ++ pat ++ post := by
  intro s pat
  induction s with
  | nil =>
    rw [hasSubstr]
    cases pat with
    | nil => simp [startsWith]
    | cons d pt =>
      rw [if_neg (by simp [startsWith])]
      refine iff_of_false (by simp) ?_
      rintro ⟨pre, post, hcontra⟩
      exact absurd hcontra.symm (by simp)
  | cons a t ih =>
    rw [hasSubstr]
    by_cases h : startsWith (a :: t) pat = true
    · rw [if_pos h]
      obtain ⟨r, hr⟩ := startsWith_iff_append.mp h
      exact iff_of_true rfl ⟨[], r, by simpa using hr⟩
    · rw [if_neg h]
      rw [ih]
      constructor
      · rintro ⟨pre, post, rfl⟩
        exact ⟨a :: pre, post, rfl⟩
      · rintro ⟨pre, post, hps⟩
        cases pre with
        | nil =>
          exact absurd (startsWith_iff_append.mpr ⟨post, by simpa using hps⟩) h
        | cons b pt =>
          cases hps
          exact ⟨pt, post, rfl⟩

/-- C5: `_match_score` returns `0` on the empty query; on a non-empty query
it returns no-match exactly when the lower-cased query is not an ordered
subsequence of the lower-cased candidate; any returned score is the sum of
the positions visited by the greedy left-to-right walk, minus 10 exactly
when the lower-cased query occurs as a contiguous substring of the
lower-cased candidate. -/
theorem claim5 : ∀ (c q : Str),
    match_score c [] = some 0
    ∧ (q ≠ [] → (match_score c q = none ↔ ¬ (toLowerStr q <+ toLowerStr c)))
    ∧ (∀ sc : Int, q ≠ [] → match_score c q = some sc →
        ∃ ps : List Nat, greedyPositions (toLowerStr c) (toLowerStr q) 0 = some ps
          ∧ sc = (ps.map (fun n : Nat => (n : Int))).sum
              - (if hasSubstr (toLowerStr c) (toLowerStr q) then 10 else 0))
    ∧ (hasSubstr (toLowerStr c) (toLowerStr q) = true
        ↔ ∃ pre post, toLowerStr c = pre ++ toLowerStr q ++ post) := by
  intro c q
  refine ⟨rfl, ?_, ?_, hasSubstr_iff⟩
  · intro hq
    rw [match_score, if_neg hq]
    have hiff := scoreLoop_none_iff (toLowerStr c) (toLowerStr q) 0 0
    rw [List.drop_zero] at hiff
    cases hs : scoreLoop (toLowerStr c) (toLowerStr q) 0 0 with
    | none =>
      dsimp only
      rw [hs] at hiff
      exact iff_of_true rfl (hiff.mp rfl)
    | some sc =>
      dsimp only
      rw [hs] at hiff
      refine iff_of_false (by simp) ?_
      intro hnsub
      exact Option.noConfusion (hiff.mpr hnsub)
  · intro sc hq hsc
    rw [match_score, if_neg hq] at hsc
    cases hs : scoreLoop (toLowerStr c) (toLowerStr q) 0 0 with
    | none => rw [hs] at hsc; cases hsc
    | some sc0 =>
      rw [hs] at hsc
      simp only [Option.some.injEq] at hsc
      have hval := scoreLoop_eq (toLowerStr c) (toLowerStr q) 0 0
      rw [hs] at hval
      cases hg : greedyPositions (toLowerStr c) (toLowerStr q) 0 with
      | none => rw [hg] at hval; cases hval
      | some ps =>
        rw [hg] at hval
        simp only [Option.map_some', Option.some.injEq] at hval
        refine ⟨ps, rfl, ?_⟩
        rw [← hsc, hval]
        split_ifs <;> simp

/-- Witness for C5 at concrete inputs. -/
theorem claim5_witness :
    (match_score "xabc".data "ab".data = none
        ↔ ¬ (toLowerStr "ab".data <+ toLowerStr "xabc".data))
    ∧ ∃ ps : List Nat,
        greedyPositions (toLowerStr "xabc".data) (toLowerStr "ab".data) 0 = some ps
        ∧ (-7 : Int) = (ps.map (fun n : Nat => (n : Int))).sum
            - (if hasSubstr (toLowerStr "xabc".data) (toLowerStr "ab".data) then 10 else 0) :=
  ⟨(claim5 "xabc".data "ab".data).2.1 (by decide),
   (claim5 "xabc".data "ab".data).2.2.1 (-7) (by decide) (by decide)⟩
/-! ## Path lemmas: `splitOnChar`, `joinWith`, whitespace strips -/

theorem splitOnChar_ne_nil (sep : Char) : ∀ s : Str, splitOnChar sep s ≠ []
  | [] => by simp [splitOnChar]
  | c :: rest => by
    rw [splitOnChar]
    cases hs : splitOnChar sep rest with
    | nil => simp
    | cons h t => split_ifs <;> simp

theorem splitOnChar_sep_cons (sep : Char) (s : Str) :
    splitOnChar sep (sep :: s) = [] :: splitOnChar sep s := by
  rw [splitOnChar]
  cases hs : splitOnChar sep s with
  | nil => exact absurd hs (splitOnChar_ne_nil sep s)
  | cons h t => simp

theorem splitOnChar_cons_of_ne {sep c : Char} (hc : c ≠ sep) (s : Str) :
    ∀ {h : Str} {t : List Str}, splitOnChar sep s = h :: t →
    splitOnChar sep (c :: s) = (c :: h) :: t := by
  intro h t hs
  rw [splitOnChar, hs]
  simp [hc]

theorem splitOnChar_sep_not_mem (sep : Char) : ∀ (s : Str), ∀ x ∈ splitOnChar sep s, sep ∉ x
  | [] => by simp [splitOnChar]
  | c :: rest => by
    by_cases hc : c = sep
    · rw [hc, splitOnChar_sep_cons]
      intro x hx
      rcases List.mem_cons.mp hx with rfl | hx'
      · simp
      · exact splitOnChar_sep_not_mem sep rest x hx'
    · cases hs : splitOnChar sep rest with
      | nil => exact absurd hs (splitOnChar_ne_nil sep rest)
      | cons h t =>
        rw [splitOnChar_cons_of_ne hc rest hs]
        intro x hx
        rcases List.mem_cons.mp hx with rfl | hx'
        · intro hmem
          rcases List.mem_cons.mp hmem with hh | hh
          · exact hc hh.symm
          · exact splitOnChar_sep_not_mem sep rest h (hs ▸ List.mem_cons_self h t) hh
        · exact splitOnChar_sep_not_mem sep rest x (hs ▸ List.mem_cons_of_mem h hx')

theorem splitOnChar_chars_subset (sep : Char) : ∀ (s : Str), ∀ x ∈ splitOnChar sep s,
    ∀ ch ∈ x, ch ∈ s
  | [] => by simp [splitOnChar]
  | c :: rest => by
    by_cases hc : c = sep
    · rw [hc, splitOnChar_sep_cons]
      intro x hx ch hch
      rcases List.mem_cons.mp hx with rfl | hx'
      · cases hch
      · exact List.mem_cons_of_mem sep (splitOnChar_chars_subset sep rest x hx' ch hch)
    · cases hs : splitOnChar sep rest with
      | nil => exact absurd hs (splitOnChar_ne_nil sep rest)
      | cons h t =>
        rw [splitOnChar_cons_of_ne hc rest hs]
        intro x hx ch hch
        rcases List.mem_cons.mp hx with rfl | hx'
        · rcases List.mem_cons.mp hch with rfl | hch'
          · exact List.mem_cons_self ch rest
          · exact List.mem_cons_of_mem c
              (splitOnChar_chars_subset sep rest h (hs ▸ List.mem_cons_self h t) ch hch')
        · exact List.mem_cons_of_mem c
            (splitOnChar_chars_subset sep rest x (hs ▸ List.mem_cons_of_mem h hx') ch hch)

theorem splitOnChar_of_not_mem {sep : Char} : ∀ {x : Str}, sep ∉ x →
    splitOnChar sep x = [x] := by
  intro x
  induction x with
  | nil => intro _; rfl
  | cons c x' ih =>
    intro hx
    have hc : c ≠ sep := fun h => hx (h ▸ List.mem_cons_self c x')
    have hx' : sep ∉ x' := fun h => hx (List.mem_cons_of_mem c h)
    rw [splitOnChar_cons_of_ne hc x' (ih hx')]

theorem splitOnChar_append_sep {sep : Char} : ∀ {x : Str}, sep ∉ x → ∀ (z : Str),
    splitOnChar sep (x ++ sep :: z) = x :: splitOnChar sep z := by
  intro x
  induction x with
  | nil => intro _ z; exact splitOnChar_sep_cons sep z
  | cons c x' ih =>
    intro hx z
    have hc : c ≠ sep := fun h => hx (h ▸ List.mem_cons_self c x')
    have hx' : sep ∉ x' := fun h => hx (List.mem_cons_of_mem c h)
    have := ih hx' z
    rw [List.cons_append, splitOnChar_cons_of_ne hc (x' ++ sep :: z) this]

theorem splitOnChar_joinWith : ∀ (comps : List Str), comps ≠ [] →
    (∀ x ∈ comps, '/' ∉ x) → splitOnChar '/' (joinWith '/' comps) = comps
  | [], h, _ => absurd rfl h
  | [x], _, hsep => by
    rw [joinWith]
    exact splitOnChar_of_not_mem (hsep x (List.mem_cons_self x []))
  | x :: y :: r, _, hsep => by
    rw [joinWith, splitOnChar_append_sep (hsep x (List.mem_cons_self x (y :: r)))]
    rw [splitOnChar_joinWith (y :: r) (by simp)
      (fun z hz => hsep z (List.mem_cons_of_mem x hz))]

theorem joinWith_chars {sep : Char} : ∀ (comps : List Str), ∀ ch ∈ joinWith sep comps,
    ch = sep ∨ ∃ x ∈ comps, ch ∈ x
  | [] => by simp [joinWith]
  | [x] => by
    rw [joinWith]
    intro ch hch
    exact Or.inr ⟨x, List.mem_cons_self x [], hch⟩
  | x :: y :: r => by
    rw [joinWith]
    intro ch hch
    rcases List.mem_append.mp hch with hx | hrest
    · exact Or.inr ⟨x, List.mem_cons_self x (y :: r), hx⟩
    · rcases List.mem_cons.mp hrest with rfl | hj
      · exact Or.inl rfl
      · rcases joinWith_chars (y :: r) ch hj with h | ⟨z, hz, hchz⟩
        · exact Or.inl h
        · exact Or.inr ⟨z, List.mem_cons_of_mem x hz, hchz⟩

theorem joinWith_cons_cons (sep : Char) (x : Str) {l : List Str} (hl : l ≠ []) :
    joinWith sep (x :: l) = x ++ sep :: joinWith sep l := by
  cases l with
  | nil => exact absurd rfl hl
  | cons y r => rw [joinWith]

theorem startsWith_nil (s : Str) : startsWith s [] = true := by cases s <;> rfl

theorem startsWith_append_self : ∀ (p x : Str), startsWith (p ++ x) p = true
  | [], x => startsWith_nil x
  | c :: p', x => by
    rw [List.cons_append, startsWith]
    simp [startsWith_append_self p' x]

/-! Whitespace-strip lemmas. -/

theorem rstripWs_cons_of_nonspace {c : Char} (hc : isPySpace c = false) (s : Str) :
    rstripWs (c :: s) = c :: rstripWs s := by
  rw [rstripWs, rstripWs]
  rw [show (c :: s).reverse = s.reverse ++ [c] by simp]
  rw [List.dropWhile_append]
  cases he : (s.reverse.dropWhile isPySpace).isEmpty
  · simp
  · rw [List.isEmpty_iff] at he
    simp [he, List.dropWhile, hc]

theorem rstripWs_append_of_ne_nil (x : Str) : ∀ {y : Str}, rstripWs y ≠ [] →
    rstripWs (x ++ y) = x ++ rstripWs y := by
  intro y hy
  rw [rstripWs, rstripWs] at *
  rw [List.reverse_append, List.dropWhile_append]
  cases he : (y.reverse.dropWhile isPySpace).isEmpty
  · simp
  · rw [List.isEmpty_iff] at he
    rw [he] at hy
    simp at hy

theorem rstripWs_nonspace_front : ∀ (x : Str), (∀ c ∈ x, isPySpace c = false) →
    ∀ (y : Str), rstripWs (x ++ y) = x ++ rstripWs y
  | [], _, y => by simp
  | c :: x', hx, y => by
    rw [List.cons_append]
    rw [rstripWs_cons_of_nonspace (hx c (List.mem_cons_self c x'))]
    rw [rstripWs_nonspace_front x' (fun d hd => hx d (List.mem_cons_of_mem c hd)) y]
    rw [List.cons_append]

theorem rstripWs_subset {s : Str} : ∀ c ∈ rstripWs s, c ∈ s := by
  intro c hc
  rw [rstripWs] at hc
  rw [List.mem_reverse] at hc
  have := (List.dropWhile_sublist (l := s.reverse) (p := isPySpace)).subset hc
  rwa [List.mem_reverse] at this

theorem lstripWs_cons_of_nonspace {c : Char} (hc : isPySpace c = false) (s : Str) :
    lstripWs (c :: s) = c :: s := by
  rw [lstripWs, List.dropWhile, hc]

theorem rstripWs_joinWith : ∀ (rest : List Str) (h : rest ≠ []),
    rstripWs (joinWith '/' rest)
      = joinWith '/' (rest.dropLast ++ [rstripWs (rest.getLast h)])
  | [], h => absurd rfl h
  | [x], _ => by rw [joinWith]; rfl
  | x :: y :: r, hne => by
    have hgl : (x :: y :: r).getLast hne = (y :: r).getLast (by simp) :=
      List.getLast_cons (by simp)
    rw [hgl, joinWith]
    have hj : rstripWs ('/' :: joinWith '/' (y :: r))
        = '/' :: rstripWs (joinWith '/' (y :: r)) :=
      rstripWs_cons_of_nonspace (by decide) _
    rw [rstripWs_append_of_ne_nil x (by rw [hj]; simp), hj,
        rstripWs_joinWith (y :: r) (by simp),
        List.dropLast_cons₂, List.cons_append,
        joinWith_cons_cons '/' x (by simp)]

theorem takeUntilHash_of_not_mem {s : Str} (h : '#' ∉ s) : takeUntilHash s = s := by
  rw [takeUntilHash, List.takeWhile_eq_self_iff]
  intro a ha
  simp only [decide_eq_true_eq]
  intro heq
  exact h (heq ▸ ha)

/-! ## `normStep` / `normComps` lemmas -/

theorem normStep_nil_comp (abs : Bool) (st : List Str) : normStep abs st [] = st := by
  rw [normStep.eq_def, if_pos (Or.inl rfl)]

theorem normStep_clean {abs : Bool} {st : List Str} {c : Str} (hc : CleanComp c) :
    normStep abs st c = c :: st := by
  rw [normStep.eq_def]
  rw [if_neg (by rintro (h | h) <;> [exact hc.1 h; exact hc.2.1 h])]
  rw [if_neg hc.2.2]

theorem foldl_normStep_clean {abs : Bool} : ∀ (comps st : List Str),
    (∀ x ∈ comps, CleanComp x) → comps.foldl (normStep abs) st = comps.reverse ++ st
  | [], st, _ => by simp
  | c :: cs, st, h => by
    rw [List.foldl_cons, normStep_clean (h c (List.mem_cons_self c cs))]
    rw [foldl_normStep_clean cs (c :: st) (fun x hx => h x (List.mem_cons_of_mem c hx))]
    simp

/-- Exact case analysis of one `normStep`. -/
theorem normStep_shape (abs : Bool) (st : List Str) (c : Str) :
    normStep abs st c = st
    ∨ (normStep abs st c = c :: st
        ∧ (CleanComp c
            ∨ c = ['.', '.'] ∧ (st = [] ∧ abs = false ∨ ∃ r, st = ['.', '.'] :: r)))
    ∨ (abs = true ∧ c = ['.', '.'] ∧ st = [] ∧ normStep abs st c = [])
    ∨ (∃ top rest, st = top :: rest ∧ normStep abs st c = rest) := by
  rw [normStep.eq_def]
  by_cases h1 : c = ([] : Str) ∨ c = ['.']
  · rw [if_pos h1]
    exact Or.inl rfl
  · rw [if_neg h1]
    by_cases h2 : c = ['.', '.']
    · rw [if_pos h2]
      cases st with
      | nil =>
        dsimp only
        cases abs with
        | false =>
          refine Or.inr (Or.inl ⟨by simp, Or.inr ⟨h2, Or.inl ⟨rfl, rfl⟩⟩⟩)
        | true =>
          exact Or.inr (Or.inr (Or.inl ⟨rfl, h2, rfl, by simp⟩))
      | cons top rest =>
        dsimp only
        by_cases h3 : top = ['.', '.']
        · rw [if_pos h3]
          exact Or.inr (Or.inl ⟨rfl, Or.inr ⟨h2, Or.inr ⟨rest, by rw [h3]⟩⟩⟩)
        · rw [if_neg h3]
          exact Or.inr (Or.inr (Or.inr ⟨top, rest, rfl, rfl⟩))
    · rw [if_neg h2]
      refine Or.inr (Or.inl ⟨rfl, Or.inl ?_⟩)
      exact ⟨fun h => h1 (Or.inl h), fun h => h1 (Or.inr h), h2⟩

theorem normStep_clean_stack {st : List Str} {c : Str} (hst : ∀ x ∈ st, CleanComp x) :
    ∀ x ∈ normStep true st c, CleanComp x := by
  rcases normStep_shape true st c with h | ⟨h, hc⟩ | ⟨-, -, -, h⟩ | ⟨top, rest, hst', h⟩
  · rw [h]; exact hst
  · rw [h]
    intro x hx
    rcases List.mem_cons.mp hx with rfl | hx'
    · rcases hc with hc | ⟨rfl, ⟨-, habs⟩ | ⟨r, hr⟩⟩
      · exact hc
      · cases habs
      · exact absurd ((hst _ (hr ▸ List.mem_cons_self _ r)).2.2) (by simp)
    · exact hst x hx'
  · rw [h]; intro x hx; cases hx
  · rw [h]
    exact fun x hx => hst x (hst' ▸ List.mem_cons_of_mem top hx)

theorem foldl_normStep_clean_stack : ∀ (comps st : List Str),
    (∀ x ∈ st, CleanComp x) → ∀ x ∈ comps.foldl (normStep true) st, CleanComp x
  | [], _, hst => hst
  | c :: cs, st, hst => by
    rw [List.foldl_cons]
    exact foldl_normStep_clean_stack cs (normStep true st c) (normStep_clean_stack hst)

theorem normStep_mem {abs : Bool} {st : List Str} {c : Str} :
    ∀ x ∈ normStep abs st c, x = c ∨ x ∈ st := by
  rcases normStep_shape abs st c with h | ⟨h, -⟩ | ⟨-, -, -, h⟩ | ⟨top, rest, hst', h⟩
  · rw [h]; exact fun x hx => Or.inr hx
  · rw [h]
    intro x hx
    rcases List.mem_cons.mp hx with rfl | hx'
    · exact Or.inl rfl
    · exact Or.inr hx'
  · rw [h]; intro x hx; cases hx
  · rw [h]
    exact fun x hx => Or.inr (hst' ▸ List.mem_cons_of_mem top hx)

theorem foldl_normStep_mem {abs : Bool} : ∀ (comps st : List Str),
    ∀ x ∈ comps.foldl (normStep abs) st, x ∈ comps ∨ x ∈ st
  | [], _, x, hx => Or.inr hx
  | c :: cs, st, x, hx => by
    rw [List.foldl_cons] at hx
    rcases foldl_normStep_mem cs (normStep abs st c) x hx with h | h
    · exact Or.inl (List.mem_cons_of_mem c h)
    · rcases normStep_mem x h with rfl | h'
      · exact Or.inl (List.mem_cons_self x cs)
      · exact Or.inr h'

/-- The re-normalization step for the last component: pushing one more
component onto a stack ending in `["cpp", "w"]` keeps that base intact and
at least one component above it. -/
theorem normStep_stack_shape (Z0 : List Str) (hZ0 : 2 ≤ Z0.length)
    (hcl : ∀ x ∈ Z0, CleanComp x) (lc : Str) :
    ∃ Z, Z ≠ [] ∧ normStep true (Z0 ++ ["cpp".data, "w".data]) lc
      = Z ++ ["cpp".data, "w".data] := by
  rcases normStep_shape true (Z0 ++ ["cpp".data, "w".data]) lc with
    h | ⟨h, -⟩ | ⟨-, -, hnil, -⟩ | ⟨top, rest, hst', h⟩
  · exact ⟨Z0, by rintro rfl; simp at hZ0, h⟩
  · exact ⟨lc :: Z0, by simp, by rw [h, List.cons_append]⟩
  · exact absurd hnil (by cases Z0 <;> simp)
  · cases hz : Z0 with
    | nil => rw [hz] at hZ0; simp at hZ0
    | cons z Z0' =>
      rw [hz, List.cons_append] at hst'
      injection hst' with h1 h2
      refine ⟨Z0', ?_, by rw [← hz, h, ← h2]⟩
      intro hcon
      rw [hz, hcon] at hZ0
      simp at hZ0

/-! ## The peel lemma: matching `"/w/cpp/"`-style prefixes componentwise -/

theorem startsWith_cons_cons (c d : Char) (s p : Str) :
    startsWith (c :: s) (d :: p) = (decide (c = d) && startsWith s p) := rfl

theorem startsWith_false_of_head_ne {c d : Char} (h : c ≠ d) (s p : Str) :
    startsWith (c :: s) (d :: p) = false := by
  simp [startsWith_cons_cons, h]

theorem startsWith_slash_peel : ∀ {w : Str}, '/' ∉ w → ∀ {o : Str}, '/' ∉ o → ∀ (r q : Str),
    (startsWith (o ++ '/' :: r) (w ++ '/' :: q) = true ↔ (o = w ∧ startsWith r q = true)) := by
  intro w
  induction w with
  | nil =>
    intro _ o ho r q
    cases o with
    | nil => simp [startsWith_cons_cons]
    | cons c o' =>
      have hc : c ≠ '/' := fun h => ho (List.mem_cons.mpr (Or.inl h.symm))
      rw [List.cons_append, List.nil_append]
      rw [startsWith_false_of_head_ne hc]
      simp
  | cons a w' ih =>
    intro hw o ho r q
    have hw'' : '/' ∉ w' := fun h => hw (List.mem_cons_of_mem a h)
    cases o with
    | nil =>
      have ha : '/' ≠ a := fun h => hw (List.mem_cons.mpr (Or.inl h))
      rw [List.nil_append, List.cons_append]
      rw [startsWith_false_of_head_ne ha]
      simp
    | cons c o' =>
      have ho' : '/' ∉ o' := fun h => ho (List.mem_cons_of_mem c h)
      rw [List.cons_append, List.cons_append, startsWith_cons_cons]
      rw [Bool.and_eq_true, decide_eq_true_eq]
      rw [ih hw'' ho' r q]
      constructor
      · rintro ⟨rfl, rfl, hsw⟩
        exact ⟨rfl, hsw⟩
      · rintro ⟨heq, hsw⟩
        injection heq with h1 h2
        exact ⟨h1, h2, hsw⟩

/-! ## `normpath` acceptance analysis -/

theorem lstripWs_subset {s : Str} : ∀ c ∈ lstripWs s, c ∈ s := by
  intro c hc
  exact (List.dropWhile_sublist _).subset hc

theorem stripWs_subset {s : Str} : ∀ c ∈ stripWs s, c ∈ s := by
  intro c hc
  exact lstripWs_subset _ (rstripWs_subset _ hc)

theorem hash_not_mem_takeUntilHash (s : Str) : '#' ∉ takeUntilHash s := by
  intro hc
  have := List.mem_takeWhile_imp hc
  simp at this

theorem hash_not_mem_urlsplitPath (s : Str) : '#' ∉ urlsplitPath s := by
  rw [urlsplitPath]
  cases urlsplitNetlocRest s with
  | nil => simp
  | cons c rest =>
    dsimp only
    split_ifs
    · intro hc
      have := List.mem_takeWhile_imp hc
      simp at this
    · simp

theorem hash_not_mem_hrefPath (href : Str) : '#' ∉ hrefPath href := by
  rw [hrefPath]
  split_ifs
  · exact hash_not_mem_urlsplitPath _
  · exact fun hc => hash_not_mem_takeUntilHash href (stripWs_subset _ hc)

theorem normpath_abs_accept {p : Str} (hp : startsWith p ['/'] = true)
    (hacc : startsWith (normpath p) ("/w/cpp/".data) = true) :
    ∃ rest, normComps true (splitOnChar '/' p) = "w".data :: "cpp".data :: rest
      ∧ rest ≠ []
      ∧ normpath p = '/' :: joinWith '/' ("w".data :: "cpp".data :: rest) := by
  have hpne : p ≠ [] := by rintro rfl; simp [startsWith] at hp
  by_cases h2 : (startsWith p ['/', '/'] && !startsWith p ['/', '/', '/']) = true
  · exfalso
    have hsl : normpathSlashes p = 2 := by rw [normpathSlashes, if_pos h2]
    have hres : normpathRes p
        = '/' :: '/' :: joinWith '/' (normComps true (splitOnChar '/' p)) := by
      rw [normpathRes, hsl]; rfl
    have hnp : normpath p = normpathRes p := by
      rw [normpath, if_neg hpne, if_neg (by rw [hres]; simp)]
    rw [hnp, hres] at hacc
    rw [show ("/w/cpp/".data : Str) = '/' :: 'w' :: "/cpp/".data from rfl] at hacc
    simp [startsWith_cons_cons] at hacc
  · have hsl : normpathSlashes p = 1 := by rw [normpathSlashes, if_neg h2, if_pos hp]
    have hres : normpathRes p
        = '/' :: joinWith '/' (normComps true (splitOnChar '/' p)) := by
      rw [normpathRes, hsl]; rfl
    have hnp : normpath p = '/' :: joinWith '/' (normComps true (splitOnChar '/' p)) := by
      rw [normpath, if_neg hpne, if_neg (by rw [hres]; simp), hres]
    rw [hnp] at hacc
    rw [show ("/w/cpp/".data : Str) = '/' :: "w/cpp/".data from rfl,
        startsWith_cons_cons, Bool.and_eq_true] at hacc
    replace hacc := hacc.2
    have hsepAll : ∀ x ∈ normComps true (splitOnChar '/' p), '/' ∉ x := by
      intro x hx
      rw [normComps, List.mem_reverse] at hx
      rcases foldl_normStep_mem _ _ x hx with hcm | hcm
      · exact splitOnChar_sep_not_mem '/' p x hcm
      · cases hcm
    obtain ⟨out, hout⟩ : ∃ out, normComps true (splitOnChar '/' p) = out := ⟨_, rfl⟩
    have hsep : ∀ x ∈ out, '/' ∉ x := fun x hx => hsepAll x (hout ▸ hx)
    rw [hout] at hacc hnp ⊢
    cases out with
    | nil =>
      rw [joinWith] at hacc
      simp [startsWith] at hacc
    | cons o1 out1 =>
      cases out1 with
      | nil =>
        rw [joinWith] at hacc
        obtain ⟨r, hr⟩ := startsWith_iff_append.mp hacc
        have hmem : '/' ∈ o1 := by rw [hr]; simp
        exact absurd hmem (hsep o1 (List.mem_cons_self _ _))
      | cons o2 out2 =>
        rw [joinWith] at hacc
        have hsep1 : '/' ∉ o1 := hsep o1 (List.mem_cons_self _ _)
        rw [show ("w/cpp/".data : Str) = "w".data ++ '/' :: ("cpp".data ++ '/' :: [])
              from rfl,
            startsWith_slash_peel (by decide) hsep1] at hacc
        obtain ⟨ho1, hacc2⟩ := hacc
        cases out2 with
        | nil =>
          rw [joinWith] at hacc2
          obtain ⟨r, hr⟩ := startsWith_iff_append.mp hacc2
          have hmem : '/' ∈ o2 := by rw [hr]; simp
          exact absurd hmem (hsep o2 (List.mem_cons_of_mem o1 (List.mem_cons_self _ _)))
        | cons o3 out3 =>
          rw [joinWith] at hacc2
          have hsep2 : '/' ∉ o2 :=
            hsep o2 (List.mem_cons_of_mem o1 (List.mem_cons_self _ _))
          rw [startsWith_slash_peel (by decide) hsep2] at hacc2
          refine ⟨o3 :: out3, ?_, by simp, ?_⟩
          · rw [ho1, hacc2.1]
          · rw [hnp, ho1, hacc2.1]

/-- Every accepted output of `_normalize_href` is `w/cpp/…`: a non-trivial
`/`-joined list of clean components with no `#`. -/
theorem normalize_href_some_shape {h u : Str} (hn : normalize_href h = some u) :
    ∃ rest : List Str, rest ≠ []
      ∧ u = joinWith '/' ("w".data :: "cpp".data :: rest)
      ∧ (∀ x ∈ ("w".data :: "cpp".data :: rest), CleanComp x ∧ '/' ∉ x)
      ∧ '#' ∉ u := by
  rw [normalize_href] at hn
  split_ifs at hn with h1 h2 h3 h4
  · have hex : ∃ p', normalizedPath h = normpath p'
        ∧ startsWith p' ['/'] = true ∧ '#' ∉ p' := by
      rw [normalizedPath]
      split_ifs with h5
      · exact ⟨hrefPath h, rfl, h5, hash_not_mem_hrefPath h⟩
      · refine ⟨"/w/cpp/".data ++ hrefPath h, rfl, ?_, ?_⟩
        · rw [show ("/w/cpp/".data ++ hrefPath h : Str)
                = '/' :: ("w/cpp/".data ++ hrefPath h) from rfl]
          simp [startsWith_cons_cons, startsWith_nil]
        · intro hc
          rcases List.mem_append.mp hc with hc | hc
          · simp at hc
          · exact hash_not_mem_hrefPath h hc
    obtain ⟨p', hpeq, hp', hhash'⟩ := hex
    rw [hpeq] at h4 hn
    obtain ⟨rest, hout, hrest, hnp⟩ := normpath_abs_accept hp' h4
    rw [hnp] at hn
    injection hn with hn
    have hjw : joinWith '/' ("w".data :: "cpp".data :: rest)
        = 'w' :: '/' :: joinWith '/' ("cpp".data :: rest) := by
      rw [joinWith.eq_def]
      cases rest with
      | nil => exact absurd rfl hrest
      | cons r rs => rfl
    have hu : u = joinWith '/' ("w".data :: "cpp".data :: rest) := by
      rw [← hn, lstripSlash, hjw]
      simp [List.dropWhile_cons]
    have hmemout : ∀ x ∈ ("w".data :: "cpp".data :: rest),
        x ∈ (splitOnChar '/' p').foldl (normStep true) [] := by
      intro x hx
      have hx2 : x ∈ normComps true (splitOnChar '/' p') := by rw [hout]; exact hx
      rw [normComps, List.mem_reverse] at hx2
      exact hx2
    have hclean : ∀ x ∈ ("w".data :: "cpp".data :: rest), CleanComp x ∧ '/' ∉ x := by
      intro x hx
      refine ⟨foldl_normStep_clean_stack _ [] (by simp) x (hmemout x hx), ?_⟩
      rcases foldl_normStep_mem _ _ x (hmemout x hx) with hcm | hcm
      · exact splitOnChar_sep_not_mem '/' p' x hcm
      · cases hcm
    have hhashu : '#' ∉ u := by
      rw [hu]
      intro hc
      rcases joinWith_chars _ '#' hc with hch | ⟨x, hx, hchx⟩
      · exact absurd hch (by decide)
      · rcases foldl_normStep_mem _ _ x (hmemout x hx) with hcm | hcm
        · exact hhash' (splitOnChar_chars_subset '/' p' x hcm '#' hchx)
        · cases hcm
    exact ⟨rest, hrest, hu, hclean, hhashu⟩

theorem joinWith_wcpp_cons {rest : List Str} (hrest : rest ≠ []) :
    joinWith '/' ("w".data :: "cpp".data :: rest)
      = "w/cpp/".data ++ joinWith '/' rest := by
  rw [joinWith.eq_def]
  dsimp only
  rw [joinWith_cons_cons '/' "cpp".data hrest]
  rfl

/-- The clean components `CleanComp "w"`, `CleanComp "cpp"`. -/
theorem cleanComp_w : CleanComp "w".data := ⟨by decide, by decide, by decide⟩

theorem cleanComp_cpp : CleanComp "cpp".data := ⟨by decide, by decide, by decide⟩

/-- Re-normalizing an accepted output with the leading slash restored gives
it back unchanged, provided it carries no trailing whitespace. -/
theorem normalize_href_slash_shape {rest : List Str} (hrest : rest ≠ [])
    (hcl : ∀ x ∈ ("w".data :: "cpp".data :: rest), CleanComp x ∧ '/' ∉ x)
    (hhash : '#' ∉ joinWith '/' ("w".data :: "cpp".data :: rest))
    (hws : rstripWs (joinWith '/' ("w".data :: "cpp".data :: rest))
      = joinWith '/' ("w".data :: "cpp".data :: rest)) :
    normalize_href ('/' :: joinWith '/' ("w".data :: "cpp".data :: rest))
      = some (joinWith '/' ("w".data :: "cpp".data :: rest)) := by
  have hJ : joinWith '/' ("w".data :: "cpp".data :: rest)
      = "w/cpp/".data ++ joinWith '/' rest := joinWith_wcpp_cons hrest
  set J := joinWith '/' ("w".data :: "cpp".data :: rest) with hJdef
  have hJw : J = 'w' :: ("/cpp/".data ++ joinWith '/' rest) := by rw [hJ]; rfl
  have hhash2 : '#' ∉ ('/' :: J : Str) := by
    intro hc
    rcases List.mem_cons.mp hc with hc | hc
    · cases hc
    · exact hhash hc
  have hstrip : stripWs (takeUntilHash ('/' :: J)) = '/' :: J := by
    rw [takeUntilHash_of_not_mem hhash2, stripWs,
        lstripWs_cons_of_nonspace (by decide),
        rstripWs_cons_of_nonspace (by decide), hws]
  have hm : startsWith ('/' :: J) ("mailto:".data) = false := by
    rw [show ("mailto:".data : Str) = 'm' :: "ailto:".data from rfl]
    exact startsWith_false_of_head_ne (by decide) _ _
  have hh1 : startsWith ('/' :: J) ("http://".data) = false := by
    rw [show ("http://".data : Str) = 'h' :: "ttp://".data from rfl]
    exact startsWith_false_of_head_ne (by decide) _ _
  have hh2 : startsWith ('/' :: J) ("https://".data) = false := by
    rw [show ("https://".data : Str) = 'h' :: "ttps://".data from rfl]
    exact startsWith_false_of_head_ne (by decide) _ _
  have hmw : startsWith ('/' :: J) ("mwiki/".data) = false := by
    rw [show ("mwiki/".data : Str) = 'm' :: "wiki/".data from rfl]
    exact startsWith_false_of_head_ne (by decide) _ _
  have hsl : startsWith ('/' :: J) (['/'] : Str) = true := by
    rw [show (['/'] : Str) = '/' :: ([] : Str) from rfl, startsWith_cons_cons]
    simp [startsWith_nil]
  have hpath : hrefPath ('/' :: J) = '/' :: J := by
    rw [hrefPath, hstrip, hh1, hh2]
    simp
  have hnpath : normalizedPath ('/' :: J) = normpath ('/' :: J) := by
    rw [normalizedPath, hpath, hsl]
    simp
  have h2f : startsWith ('/' :: J) (['/', '/'] : Str) = false := by
    rw [show (['/', '/'] : Str) = '/' :: '/' :: [] from rfl, startsWith_cons_cons, hJw,
        startsWith_false_of_head_ne (by decide) ("/cpp/".data ++ joinWith '/' rest) []]
    simp
  have hslashes : normpathSlashes ('/' :: J) = 1 := by
    rw [normpathSlashes, if_neg (by rw [h2f]; simp), if_pos hsl]
  have hcomps : splitOnChar '/' ('/' :: J) = [] :: "w".data :: "cpp".data :: rest := by
    rw [splitOnChar_sep_cons, hJdef,
        splitOnChar_joinWith _ (by simp) (fun x hx => (hcl x hx).2)]
  have hncomps : normComps true (splitOnChar '/' ('/' :: J))
      = "w".data :: "cpp".data :: rest := by
    rw [normComps, hcomps, List.foldl_cons, normStep_nil_comp,
        foldl_normStep_clean _ [] (fun x hx => (hcl x hx).1)]
    simp
  have hres : normpathRes ('/' :: J) = '/' :: J := by
    rw [normpathRes, hslashes]
    show ['/'] ++ joinWith '/' (normComps true (splitOnChar '/' ('/' :: J))) = '/' :: J
    rw [hncomps, hJdef]
    rfl
  have hnormp : normpath ('/' :: J) = '/' :: J := by
    rw [normpath, if_neg (by simp), if_neg (by rw [hres]; simp), hres]
  have hacc : startsWith ('/' :: J) ("/w/cpp/".data) = true := by
    rw [show ('/' :: J : Str) = "/w/cpp/".data ++ joinWith '/' rest from by rw [hJ]; rfl]
    exact startsWith_append_self _ _
  rw [normalize_href, hstrip,
      if_neg (show ¬(('/' :: J : Str) = []) by simp),
      if_neg (show ¬(startsWith ('/' :: J) ("mailto:".data) = true) by simp [hm]),
      hpath,
      if_neg (show ¬(startsWith ('/' :: J) ("mwiki/".data) = true) by simp [hmw]),
      hnpath, hnormp, if_pos hacc]
  rw [lstripSlash, hJw]
  simp [List.dropWhile_cons]

/-- Feeding an accepted output of `_normalize_href` straight back to the
normalizer is accepted again (with a re-rooted result). -/
theorem normalize_href_reaccept {rest : List Str} (hrest : rest ≠ [])
    (hcl : ∀ x ∈ ("w".data :: "cpp".data :: rest), CleanComp x ∧ '/' ∉ x)
    (hhash : '#' ∉ joinWith '/' ("w".data :: "cpp".data :: rest)) :
    (normalize_href (joinWith '/' ("w".data :: "cpp".data :: rest))).isSome = true := by
  have hJ : joinWith '/' ("w".data :: "cpp".data :: rest)
      = "w/cpp/".data ++ joinWith '/' rest := joinWith_wcpp_cons hrest
  set J := joinWith '/' ("w".data :: "cpp".data :: rest) with hJdef
  have hstrip : stripWs (takeUntilHash J)
      = "w/cpp/".data ++ rstripWs (joinWith '/' rest) := by
    rw [takeUntilHash_of_not_mem hhash, stripWs, hJ,
        show ("w/cpp/".data ++ joinWith '/' rest : Str)
          = 'w' :: ("/cpp/".data ++ joinWith '/' rest) from rfl,
        lstripWs_cons_of_nonspace (by decide),
        show ('w' :: ("/cpp/".data ++ joinWith '/' rest) : Str)
          = "w/cpp/".data ++ joinWith '/' rest from rfl]
    exact rstripWs_nonspace_front "w/cpp/".data (by decide) _
  have hrstrip : rstripWs (joinWith '/' rest)
      = joinWith '/' (rest.dropLast ++ [rstripWs (rest.getLast hrest)]) :=
    rstripWs_joinWith rest hrest
  set lc := rstripWs (rest.getLast hrest) with hlc
  set comps2 := rest.dropLast ++ [lc] with hcomps2
  have hc2ne : comps2 ≠ [] := by simp [hcomps2]
  have hc2sep : ∀ x ∈ comps2, '/' ∉ x := by
    intro x hx
    rcases List.mem_append.mp hx with hx | hx
    · exact (hcl x (List.mem_cons_of_mem _
        (List.mem_cons_of_mem _ (List.dropLast_subset rest hx)))).2
    · rw [List.mem_singleton] at hx
      subst hx
      intro hc
      exact (hcl _ (List.mem_cons_of_mem _
        (List.mem_cons_of_mem _ (List.getLast_mem hrest)))).2 (rstripWs_subset _ hc)
  have hstrip2 : stripWs (takeUntilHash J) = "w/cpp/".data ++ joinWith '/' comps2 := by
    rw [hstrip, hrstrip]
  have hu'w : ("w/cpp/".data ++ joinWith '/' comps2 : Str)
      = 'w' :: ("/cpp/".data ++ joinWith '/' comps2) := rfl
  have hm : startsWith ("w/cpp/".data ++ joinWith '/' comps2) ("mailto:".data) = false := by
    rw [hu'w, show ("mailto:".data : Str) = 'm' :: "ailto:".data from rfl]
    exact startsWith_false_of_head_ne (by decide) _ _
  have hh1 : startsWith ("w/cpp/".data ++ joinWith '/' comps2) ("http://".data) = false := by
    rw [hu'w, show ("http://".data : Str) = 'h' :: "ttp://".data from rfl]
    exact startsWith_false_of_head_ne (by decide) _ _
  have hh2 : startsWith ("w/cpp/".data ++ joinWith '/' comps2) ("https://".data)
      = false := by
    rw [hu'w, show ("https://".data : Str) = 'h' :: "ttps://".data from rfl]
    exact startsWith_false_of_head_ne (by decide) _ _
  have hmw : startsWith ("w/cpp/".data ++ joinWith '/' comps2) ("mwiki/".data) = false := by
    rw [hu'w, show ("mwiki/".data : Str) = 'm' :: "wiki/".data from rfl]
    exact startsWith_false_of_head_ne (by decide) _ _
  have hnoslash : startsWith ("w/cpp/".data ++ joinWith '/' comps2) (['/'] : Str)
      = false := by
    rw [hu'w, show (['/'] : Str) = '/' :: ([] : Str) from rfl]
    exact startsWith_false_of_head_ne (by decide) _ _
  have hpath : hrefPath J = "w/cpp/".data ++ joinWith '/' comps2 := by
    rw [hrefPath, hstrip2, hh1, hh2]
    simp
  have hnpath : normalizedPath J
      = normpath ("/w/cpp/".data ++ ("w/cpp/".data ++ joinWith '/' comps2)) := by
    rw [normalizedPath, hpath, hnoslash]
    simp
  set p2 := "/w/cpp/".data ++ ("w/cpp/".data ++ joinWith '/' comps2) with hp2
  have hp2c : p2 = '/' :: ("w".data ++ '/' :: ("cpp".data ++ '/' ::
      ("w".data ++ '/' :: ("cpp".data ++ '/' :: joinWith '/' comps2)))) := rfl
  have hp2w : p2 = '/' :: 'w' :: ("/cpp/w/cpp/".data ++ joinWith '/' comps2) := rfl
  have hsplit : splitOnChar '/' p2
      = [] :: "w".data :: "cpp".data :: "w".data :: "cpp".data :: comps2 := by
    rw [hp2c, splitOnChar_sep_cons,
        splitOnChar_append_sep (by decide),
        splitOnChar_append_sep (by decide),
        splitOnChar_append_sep (by decide),
        splitOnChar_append_sep (by decide),
        splitOnChar_joinWith comps2 hc2ne hc2sep]
  have hdlclean : ∀ x ∈ rest.dropLast, CleanComp x := fun x hx =>
    (hcl x (List.mem_cons_of_mem _
      (List.mem_cons_of_mem _ (List.dropLast_subset rest hx)))).1
  have hfold :
      (([] : Str) :: "w".data :: "cpp".data :: "w".data :: "cpp".data :: comps2).foldl
          (normStep true) []
        = normStep true
            ((rest.dropLast.reverse ++ ["cpp".data, "w".data]) ++ ["cpp".data, "w".data])
            lc := by
    rw [List.foldl_cons, normStep_nil_comp,
        List.foldl_cons, normStep_clean cleanComp_w,
        List.foldl_cons, normStep_clean cleanComp_cpp,
        List.foldl_cons, normStep_clean cleanComp_w,
        List.foldl_cons, normStep_clean cleanComp_cpp,
        hcomps2, List.foldl_append,
        foldl_normStep_clean rest.dropLast _ hdlclean,
        List.foldl_cons, List.foldl_nil]
    congr 1
    rw [List.append_assoc]
    rfl
  obtain ⟨Z, hZne, hZ⟩ := normStep_stack_shape
    (rest.dropLast.reverse ++ ["cpp".data, "w".data])
    (by simp)
    (by
      intro x hx
      rcases List.mem_append.mp hx with hx | hx
      · exact hdlclean x (List.mem_reverse.mp hx)
      · rcases List.mem_cons.mp hx with rfl | hx
        · exact cleanComp_cpp
        · rw [List.mem_singleton] at hx
          subst hx
          exact cleanComp_w)
    lc
  have hncomps : normComps true (splitOnChar '/' p2)
      = "w".data :: "cpp".data :: Z.reverse := by
    rw [normComps, hsplit, hfold, hZ, List.reverse_append]
    rfl
  have hZrevne : Z.reverse ≠ [] := by simp [hZne]
  have h2f : startsWith p2 (['/', '/'] : Str) = false := by
    rw [hp2w, show (['/', '/'] : Str) = '/' :: '/' :: [] from rfl, startsWith_cons_cons,
        startsWith_false_of_head_ne (by decide) ("/cpp/w/cpp/".data ++ joinWith '/' comps2)
          []]
    simp
  have hsl1 : startsWith p2 (['/'] : Str) = true := by
    rw [hp2w, show (['/'] : Str) = '/' :: ([] : Str) from rfl, startsWith_cons_cons]
    simp [startsWith_nil]
  have hslashes : normpathSlashes p2 = 1 := by
    rw [normpathSlashes, if_neg (by rw [h2f]; simp), if_pos hsl1]
  have hres : normpathRes p2
      = '/' :: joinWith '/' ("w".data :: "cpp".data :: Z.reverse) := by
    rw [normpathRes, hslashes]
    show ['/'] ++ joinWith '/' (normComps true (splitOnChar '/' p2)) = _
    rw [hncomps]
    rfl
  have hnormp : normpath p2
      = '/' :: joinWith '/' ("w".data :: "cpp".data :: Z.reverse) := by
    rw [normpath, if_neg (by rw [hp2w]; simp), if_neg (by rw [hres]; simp), hres]
  have hacc : startsWith (normpath p2) ("/w/cpp/".data) = true := by
    rw [hnormp, show ('/' :: joinWith '/' ("w".data :: "cpp".data :: Z.reverse) : Str)
          = "/w/cpp/".data ++ joinWith '/' Z.reverse from by
        rw [joinWith_wcpp_cons hZrevne]; rfl]
    exact startsWith_append_self _ _
  rw [normalize_href, hstrip2,
      if_neg (show ¬(("w/cpp/".data ++ joinWith '/' comps2 : Str) = []) by
        rw [hu'w]; simp),
      if_neg (by rw [hm]; simp),
      hpath,
      if_neg (by rw [hmw]; simp),
      hnpath, if_pos hacc]
  rfl

/-! ## Claim C2 -/

/-- C2 counterexample: the normalizer's accepted outputs drop the leading
slash, so feeding an accepted output straight back re-resolves it as a
relative path under `/w/cpp/` and yields a different path:
`normalize(normalize("vector")) ≠ normalize("vector")`. -/
theorem claim2_counterexample :
    normalize_href "vector".data = some "w/cpp/vector".data
    ∧ normalize_href "w/cpp/vector".data = some "w/cpp/w/cpp/vector".data
    ∧ ("w/cpp/w/cpp/vector".data : Str) ≠ "w/cpp/vector".data :=
  ⟨by decide, by decide, by decide⟩

/-- C2 (amended): normalization is idempotent only up to the stripped leading
separator: for every accepted href, re-prepending `/` to the returned path
and normalizing again returns the same path, provided the returned path does
not end in whitespace (which only exotic hrefs can produce). -/
theorem claim2_amended : ∀ (h u : Str), normalize_href h = some u →
    rstripWs u = u → normalize_href ('/' :: u) = some u := by
  intro h u hn hws
  obtain ⟨rest, hrest, hu, hcl, hhash⟩ := normalize_href_some_shape hn
  subst hu
  exact normalize_href_slash_shape hrest hcl hhash hws

/-- Witness for the amended C2 at a concrete href. -/
theorem claim2_witness :
    normalize_href ('/' :: "w/cpp/container/vector".data)
      = some "w/cpp/container/vector".data :=
  claim2_amended "/w/cpp/container/vector".data "w/cpp/container/vector".data
    (by decide) (by decide)

/-! ## The extractor invariant (claims C4 and C7) -/

theorem normalize_href_accepts_output {h u : Str} (hn : normalize_href h = some u) :
    u ≠ [] ∧ (normalize_href u).isSome = true := by
  obtain ⟨rest, hrest, hu, hcl, hhash⟩ := normalize_href_some_shape hn
  subst hu
  refine ⟨?_, normalize_href_reaccept hrest hcl hhash⟩
  rw [joinWith_wcpp_cons hrest]
  simp

theorem dictAppendOption_entryOk {d : List (Str × List IndexOption)} {k : Str}
    {o : IndexOption} (hd : ∀ p ∈ d, EntryOk p) (hk : k ≠ []) (ho : UrlOk o.url) :
    ∀ p ∈ dictAppendOption d k o, EntryOk p := by
  induction d with
  | nil =>
    intro p hp
    rw [dictAppendOption] at hp
    rcases List.mem_singleton.mp hp with rfl
    exact ⟨hk, by simp, fun o' ho' => by rw [List.mem_singleton] at ho'; subst ho'; exact ho⟩
  | cons q rest ih =>
    obtain ⟨k', opts⟩ := q
    intro p hp
    rw [dictAppendOption] at hp
    split_ifs at hp with hkk hmem
    · rcases List.mem_cons.mp hp with rfl | hp'
      · exact hd _ (List.mem_cons_self _ _)
      · exact hd p (List.mem_cons_of_mem _ hp')
    · rcases List.mem_cons.mp hp with rfl | hp'
      · have hq := hd (k', opts) (List.mem_cons_self _ _)
        refine ⟨hq.1, ?_, ?_⟩
        · simp [List.nodup_append, hq.2.1, hmem]
        · intro o' ho'
          rcases List.mem_append.mp ho' with h' | h'
          · exact hq.2.2 o' h'
          · rw [List.mem_singleton] at h'
            subst h'
            exact ho
      · exact hd p (List.mem_cons_of_mem _ hp')
    · rcases List.mem_cons.mp hp with rfl | hp'
      · exact hd _ (List.mem_cons_self _ _)
      · exact ih (fun q hq => hd q (List.mem_cons_of_mem _ hq)) p hp'

theorem dictAppendOption_keys (d : List (Str × List IndexOption)) (k : Str)
    (o : IndexOption) :
    (dictAppendOption d k o).map Prod.fst
      = if k ∈ d.map Prod.fst then d.map Prod.fst else d.map Prod.fst ++ [k] := by
  induction d with
  | nil => simp [dictAppendOption]
  | cons q rest ih =>
    obtain ⟨k', opts⟩ := q
    rw [dictAppendOption]
    by_cases hkk : k' = k
    · rw [if_pos hkk]
      have hmem : k ∈ ((k', opts) :: rest).map Prod.fst := by simp [hkk]
      rw [if_pos hmem]
      simp
    · rw [if_neg hkk]
      simp only [List.map_cons, List.mem_cons]
      rw [ih]
      by_cases hmem : k ∈ rest.map Prod.fst
      · rw [if_pos hmem, if_pos (Or.inr hmem)]
      · rw [if_neg hmem, if_neg (by
          rintro (h | h)
          · exact hkk h.symm
          · exact hmem h)]
        simp

theorem dictAppendOption_keys_nodup {d : List (Str × List IndexOption)} {k : Str}
    {o : IndexOption} (h : (d.map Prod.fst).Nodup) :
    ((dictAppendOption d k o).map Prod.fst).Nodup := by
  rw [dictAppendOption_keys]
  split_ifs with hmem
  · exact h
  · simp [List.nodup_append, h, hmem]

theorem dictAppendOption_get {d : List (Str × List IndexOption)} {k : Str}
    {opts : List IndexOption} (h : dictGet d k = some opts) (k' : Str) (o : IndexOption) :
    ∃ extra, dictGet (dictAppendOption d k' o) k = some (opts ++ extra) := by
  induction d with
  | nil => rw [dictGet_nil] at h; cases h
  | cons q rest ih =>
    obtain ⟨kh, vh⟩ := q
    rw [dictGet_cons] at h
    rw [dictAppendOption]
    by_cases hk1 : kh = k
    · rw [if_pos hk1] at h
      injection h with h
      subst h
      by_cases hk2 : kh = k'
      · rw [if_pos hk2, dictGet_cons, if_pos hk1]
        by_cases hmem : o ∈ vh
        · exact ⟨[], by simp [hmem]⟩
        · exact ⟨[o], by simp [hmem]⟩
      · rw [if_neg hk2, dictGet_cons, if_pos hk1]
        exact ⟨[], by simp⟩
    · rw [if_neg hk1] at h
      by_cases hk2 : kh = k'
      · rw [if_pos hk2, dictGet_cons, if_neg hk1]
        exact ⟨[], by simp [h]⟩
      · rw [if_neg hk2, dictGet_cons, if_neg hk1]
        exact ih h

/-- `clearPending` preserves the invariant. -/
theorem clearPending_stateOk {s : ParserState} (h : StateOk s) :
    StateOk (clearPending s) :=
  ⟨h.1, h.2.1, fun u hu => by rw [clearPending] at hu; cases hu⟩

theorem finalize_pending_stateOk {s : ParserState} (h : StateOk s) :
    StateOk (finalize_pending s) := by
  rw [finalize_pending]
  cases hsym : s.pending_symbol with
  | none => exact clearPending_stateOk h
  | some sym =>
    cases hurl : s.pending_url with
    | none => exact clearPending_stateOk h
    | some url =>
      dsimp only
      by_cases hempty : sym = [] ∨ url = []
      · rw [if_pos hempty]
        exact clearPending_stateOk h
      · rw [if_neg hempty]
        have hurlok : UrlOk url := h.2.2 url hurl
        have hsymne : sym ≠ [] := fun hc => hempty (Or.inl hc)
        refine ⟨?_, ?_, ?_⟩
        · intro p hp
          exact dictAppendOption_entryOk h.1 hsymne hurlok p hp
        · exact dictAppendOption_keys_nodup h.2.1
        · intro u hu
          rw [clearPending] at hu
          cases hu

theorem handle_starttag_stateOk {tag : Str} {attrs : List (Str × Option Str)}
    {s : ParserState} (h : StateOk s) : StateOk (handle_starttag tag attrs s) := by
  rw [handle_starttag]
  split_ifs with h1 h2
  · exact finalize_pending_stateOk h
  · exact h
  · cases findHrefAttr attrs with
    | none => exact finalize_pending_stateOk h
    | some v =>
      dsimp only
      split_ifs with h3
      · have hf := finalize_pending_stateOk h
        exact ⟨hf.1, hf.2.1, fun u hu => hf.2.2 u hu⟩
      · exact finalize_pending_stateOk h

theorem handle_data_stateOk {text : Str} {s : ParserState} (h : StateOk s) :
    StateOk (handle_data text s) := by
  rw [handle_data]
  cases s.current_href with
  | none =>
    dsimp only
    split_ifs
    · exact h
    · exact ⟨h.1, h.2.1, fun u hu => h.2.2 u hu⟩
    · exact h
  | some _ =>
    dsimp only
    split_ifs
    · exact ⟨h.1, h.2.1, fun u hu => h.2.2 u hu⟩
    · exact h

theorem handle_endtag_stateOk {tag : Str} {s : ParserState} (h : StateOk s) :
    StateOk (handle_endtag tag s) := by
  rw [handle_endtag]
  split_ifs with h1
  · exact h
  · cases s.current_href with
    | none => exact h
    | some href =>
      dsimp only
      cases hnorm : normalize_href href with
      | none => exact clearPending_stateOk ⟨h.1, h.2.1, fun u hu => h.2.2 u hu⟩
      | some n =>
        dsimp only
        by_cases h2 : clean_symbol (stripWs (s.current_text_parts.foldr (· ++ ·) [])) = []
            ∨ n = [] ∨ startsWith n ("w/cpp/symbol_index".data) = true
        · rw [if_pos h2]
          exact clearPending_stateOk ⟨h.1, h.2.1, fun u hu => h.2.2 u hu⟩
        · rw [if_neg h2]
          refine ⟨h.1, h.2.1, ?_⟩
          intro u hu
          simp only [Option.some.injEq] at hu
          subst hu
          have hacc := normalize_href_accepts_output hnorm
          refine ⟨hacc.1, hacc.2, ?_⟩
          cases hsw : startsWith n ("w/cpp/symbol_index".data) with
          | false => rfl
          | true => exact absurd (Or.inr (Or.inr hsw)) h2

theorem processEvent_stateOk {s : ParserState} (e : Event) (h : StateOk s) :
    StateOk (processEvent s e) := by
  cases e with
  | starttag t attrs => exact handle_starttag_stateOk h
  | data t => exact handle_data_stateOk h
  | endtag t => exact handle_endtag_stateOk h

theorem foldl_processEvent_stateOk : ∀ (evs : List Event) (s : ParserState),
    StateOk s → StateOk (evs.foldl processEvent s)
  | [], _, h => h
  | e :: rest, s, h =>
    foldl_processEvent_stateOk rest (processEvent s e) (processEvent_stateOk e h)

theorem initState_stateOk : StateOk initState :=
  ⟨by simp [initState], by simp [initState], fun u hu => by rw [initState] at hu; cases hu⟩

theorem runEvents_stateOk (evs : List Event) : StateOk (runEvents evs) := by
  rw [runEvents]
  exact finalize_pending_stateOk (foldl_processEvent_stateOk evs initState initState_stateOk)

/-! ## Claims C7 and C4

From the state invariant to the two index producers: `parse_symbol_index`
(sort of the parser's dict) and `write_index` (re-merge plus sort). -/

/-- Sorting a dict with `Nodup` keys by the non-strict `entryRel` yields a
strictly ascending key sequence. -/
theorem sorted_entries_strict {l : List (Str × List IndexOption)}
    (hn : (l.map Prod.fst).Nodup) :
    (insertionSort entryRel l).Pairwise (fun a b => strLt a.1 b.1 = true) := by
  haveI : IsTotal (Str × List IndexOption) entryRel := ⟨entryRel_total⟩
  haveI : IsTrans (Str × List IndexOption) entryRel := ⟨entryRel_trans⟩
  have hs : (insertionSort entryRel l).Pairwise entryRel :=
    List.sorted_insertionSort entryRel l
  have hperm : insertionSort entryRel l ~ l := List.perm_insertionSort entryRel l
  have hn2 : ((insertionSort entryRel l).map Prod.fst).Nodup :=
    ((hperm.map Prod.fst).nodup_iff).mpr hn
  have hne : ((insertionSort entryRel l).map Prod.fst).Pairwise (· ≠ ·) := hn2
  rw [List.pairwise_map] at hne
  exact (hs.and hne).imp (fun hab => strLt_of_strLe_of_ne hab.1 hab.2)

/-- The output of `parse_symbol_index` is strictly sorted by symbol and every
entry inherits the parser-state invariant. -/
theorem parse_symbol_index_ok (evs : List Event) :
    (parse_symbol_index evs).Pairwise (fun a b => strLt a.symbol b.symbol = true)
    ∧ ∀ e ∈ parse_symbol_index evs, e.symbol ≠ [] ∧ e.options.Nodup
        ∧ ∀ o ∈ e.options, UrlOk o.url := by
  have hst := runEvents_stateOk evs
  constructor
  · rw [parse_symbol_index, List.pairwise_map]
    exact sorted_entries_strict hst.2.1
  · intro e he
    rw [parse_symbol_index, List.mem_map] at he
    obtain ⟨p, hp, rfl⟩ := he
    have hp2 : p ∈ (runEvents evs).entries :=
      ((List.perm_insertionSort entryRel (runEvents evs).entries).mem_iff).mp hp
    exact hst.1 p hp2

theorem dictSetdefault_entryOk {d : List (Str × List IndexOption)} {k : Str}
    {v : List IndexOption} (hd : ∀ p ∈ d, EntryOk p) (hkv : EntryOk (k, v)) :
    ∀ p ∈ dictSetdefault d k v, EntryOk p := by
  induction d with
  | nil =>
    intro p hp
    rw [dictSetdefault] at hp
    rcases List.mem_singleton.mp hp with rfl
    exact hkv
  | cons q rest ih =>
    obtain ⟨k', v'⟩ := q
    intro p hp
    rw [dictSetdefault] at hp
    split_ifs at hp
    · exact hd p hp
    · rcases List.mem_cons.mp hp with rfl | hp'
      · exact hd _ (List.mem_cons_self _ _)
      · exact ih (fun q hq => hd q (List.mem_cons_of_mem _ hq)) p hp'

theorem dictSetdefault_keys {α : Type} (d : List (Str × α)) (k : Str) (v : α) :
    (dictSetdefault d k v).map Prod.fst
      = if k ∈ d.map Prod.fst then d.map Prod.fst else d.map Prod.fst ++ [k] := by
  induction d with
  | nil => simp [dictSetdefault]
  | cons q rest ih =>
    obtain ⟨k', v'⟩ := q
    rw [dictSetdefault]
    by_cases hkk : k' = k
    · rw [if_pos hkk]
      have hmem : k ∈ ((k', v') :: rest).map Prod.fst := by
        rw [List.map_cons, hkk]
        exact List.mem_cons_self _ _
      rw [if_pos hmem]
    · rw [if_neg hkk]
      simp only [List.map_cons, List.mem_cons]
      rw [ih]
      by_cases hmem : k ∈ rest.map Prod.fst
      · rw [if_pos hmem, if_pos (Or.inr hmem)]
      · rw [if_neg hmem, if_neg (by
          rintro (h | h)
          · exact hkk h.symm
          · exact hmem h)]
        simp

theorem dictSetdefault_keys_nodup {α : Type} {d : List (Str × α)} {k : Str} {v : α}
    (h : (d.map Prod.fst).Nodup) : ((dictSetdefault d k v).map Prod.fst).Nodup := by
  rw [dictSetdefault_keys]
  split_ifs with hmem
  · exact h
  · simp [List.nodup_append, h, hmem]

/-- The option-append loop of `write_index`'s merge preserves entry
well-formedness and key uniqueness. -/
theorem foldl_dictAppendOption_ok {k : Str} (hk : k ≠ []) :
    ∀ (opts : List IndexOption) (m : List (Str × List IndexOption)),
      (∀ p ∈ m, EntryOk p) → (m.map Prod.fst).Nodup → (∀ o ∈ opts, UrlOk o.url) →
      (∀ p ∈ opts.foldl (fun m o => dictAppendOption m k o) m, EntryOk p)
        ∧ ((opts.foldl (fun m o => dictAppendOption m k o) m).map Prod.fst).Nodup := by
  intro opts
  induction opts with
  | nil =>
    intro m hm hn _
    exact ⟨hm, hn⟩
  | cons o rest ih =>
    intro m hm hn ho
    rw [List.foldl_cons]
    exact ih _ (dictAppendOption_entryOk hm hk (ho o (List.mem_cons_self _ _)))
      (dictAppendOption_keys_nodup hn)
      (fun o' ho' => ho o' (List.mem_cons_of_mem _ ho'))

theorem mergeEntriesStep_ok {m : List (Str × List IndexOption)} {e : IndexEntry}
    (hm : ∀ p ∈ m, EntryOk p) (hn : (m.map Prod.fst).Nodup)
    (he : e.symbol ≠ [] ∧ ∀ o ∈ e.options, UrlOk o.url) :
    (∀ p ∈ mergeEntriesStep m e, EntryOk p)
      ∧ ((mergeEntriesStep m e).map Prod.fst).Nodup := by
  rw [mergeEntriesStep]
  exact foldl_dictAppendOption_ok he.1 e.options (dictSetdefault m e.symbol [])
    (dictSetdefault_entryOk hm
      ⟨he.1, List.nodup_nil, fun o ho => absurd ho (List.not_mem_nil o)⟩)
    (dictSetdefault_keys_nodup hn)
    he.2

theorem foldl_mergeEntriesStep_ok :
    ∀ (es : List IndexEntry) (m : List (Str × List IndexOption)),
      (∀ e ∈ es, e.symbol ≠ [] ∧ ∀ o ∈ e.options, UrlOk o.url) →
      (∀ p ∈ m, EntryOk p) → (m.map Prod.fst).Nodup →
      (∀ p ∈ es.foldl mergeEntriesStep m, EntryOk p)
        ∧ ((es.foldl mergeEntriesStep m).map Prod.fst).Nodup := by
  intro es
  induction es with
  | nil =>
    intro m _ hm hn
    exact ⟨hm, hn⟩
  | cons e rest ih =>
    intro m hes hm hn
    rw [List.foldl_cons]
    have h1 := mergeEntriesStep_ok hm hn (hes e (List.mem_cons_self _ _))
    exact ih _ (fun e' he' => hes e' (List.mem_cons_of_mem _ he')) h1.1 h1.2

/-- The entry list `write_index` serializes satisfies the index invariant. -/
theorem write_payload_ok (evs : List Event) (t : Str) :
    IndexOk (write_index_payload (parse_symbol_index evs) t).entries := by
  have hparse := parse_symbol_index_ok evs
  have hfold := foldl_mergeEntriesStep_ok (parse_symbol_index evs) []
    (fun e he => ⟨(hparse.2 e he).1, (hparse.2 e he).2.2⟩)
    (fun p hp => absurd hp (List.not_mem_nil p)) List.nodup_nil
  have hgoal : (write_index_payload (parse_symbol_index evs) t).entries
      = (insertionSort entryRel ((parse_symbol_index evs).foldl mergeEntriesStep [])).map
          (fun p => ⟨p.1, p.2⟩) := rfl
  rw [IndexOk, hgoal]
  constructor
  · rw [List.pairwise_map]
    exact sorted_entries_strict hfold.2
  · intro e he
    rw [List.mem_map] at he
    obtain ⟨p, hp, rfl⟩ := he
    have hp2 : p ∈ (parse_symbol_index evs).foldl mergeEntriesStep [] :=
      ((List.perm_insertionSort entryRel _).mem_iff).mp hp
    have hpo := hfold.1 p hp2
    exact ⟨hpo.1, hpo.2.1, fun o ho => ⟨(hpo.2.2 o ho).1, (hpo.2.2 o ho).2.1⟩⟩

/-- `_finalize_pending` leaves the dict alone or performs exactly one
guarded append. -/
theorem finalize_pending_entries (s : ParserState) :
    (finalize_pending s).entries = s.entries
      ∨ ∃ k o, (finalize_pending s).entries = dictAppendOption s.entries k o := by
  rw [finalize_pending]
  cases s.pending_symbol with
  | none => exact Or.inl rfl
  | some sym =>
    cases s.pending_url with
    | none => exact Or.inl rfl
    | some url =>
      dsimp only
      by_cases hempty : sym = [] ∨ url = []
      · rw [if_pos hempty]
        exact Or.inl rfl
      · rw [if_neg hempty]
        dsimp only
        exact Or.inr ⟨sym, _, rfl⟩

/-- Each handler leaves the dict alone or performs exactly one guarded
append: entries are only ever extended, never rewritten. -/
theorem processEvent_entries (s : ParserState) (e : Event) :
    (processEvent s e).entries = s.entries
      ∨ ∃ k o, (processEvent s e).entries = dictAppendOption s.entries k o := by
  cases e with
  | starttag t attrs =>
    dsimp only [processEvent]
    rw [handle_starttag]
    split_ifs with h1 h2
    · exact finalize_pending_entries s
    · exact Or.inl rfl
    · dsimp only
      cases findHrefAttr attrs with
      | none => exact finalize_pending_entries s
      | some v =>
        dsimp only
        split_ifs with h3
        · exact finalize_pending_entries s
        · exact finalize_pending_entries s
  | data t =>
    dsimp only [processEvent]
    rw [handle_data]
    cases s.current_href with
    | none =>
      dsimp only
      split_ifs <;> exact Or.inl rfl
    | some v =>
      dsimp only
      split_ifs <;> exact Or.inl rfl
  | endtag t =>
    dsimp only [processEvent]
    rw [handle_endtag]
    split_ifs with h1
    · exact Or.inl rfl
    · cases s.current_href with
      | none => exact Or.inl rfl
      | some href =>
        dsimp only
        cases normalize_href href with
        | none => exact Or.inl rfl
        | some n =>
          dsimp only
          split_ifs <;> exact Or.inl rfl

/-- Within an entry the option list only grows at its end: first-seen order
of the already-recorded options survives every event. -/
theorem processEvent_append_only (s : ParserState) (e : Event) (k : Str)
    (opts : List IndexOption) (h : dictGet s.entries k = some opts) :
    ∃ extra, dictGet (processEvent s e).entries k = some (opts ++ extra) := by
  rcases processEvent_entries s e with he | ⟨k', o, he⟩
  · exact ⟨[], by rw [he, h]; simp⟩
  · rw [he]
    exact dictAppendOption_get h k' o

/-- C7: every index produced by `parse_symbol_index` and every entry list
serialized by `write_index` satisfies the Index invariant — entries strictly
sorted by symbol, symbols non-empty, options deduplicated, every url
non-empty and accepted by the normalizer — and the parser's dict preserves
first-seen option order: an event can only append to a recorded option
list, never reorder or rewrite it. -/
theorem claim7 : ∀ (evs : List Event) (t : Str),
    IndexOk (parse_symbol_index evs)
    ∧ IndexOk (write_index_payload (parse_symbol_index evs) t).entries
    ∧ (∀ (s : ParserState) (e : Event) (k : Str) (opts : List IndexOption),
        dictGet s.entries k = some opts →
        ∃ extra, dictGet (processEvent s e).entries k = some (opts ++ extra)) := by
  intro evs t
  refine ⟨?_, write_payload_ok evs t,
    fun s e k opts h => processEvent_append_only s e k opts h⟩
  have hp := parse_symbol_index_ok evs
  exact ⟨hp.1, fun e he => ⟨(hp.2 e he).1, (hp.2 e he).2.1,
    fun o ho => ⟨((hp.2 e he).2.2 o ho).1, ((hp.2 e he).2.2 o ho).2.1⟩⟩⟩

/-- Witness for C7: appending a data event to a state whose dict maps
"vector" to one option keeps that option list as a prefix. -/
theorem claim7_witness :
    ∃ extra, dictGet (processEvent
        { initState with entries := [("vector".data, [⟨"l".data, "u".data⟩])] }
        (.data "x".data)).entries "vector".data
      = some ([(⟨"l".data, "u".data⟩ : IndexOption)] ++ extra) :=
  (claim7 [] []).2.2 _ _ "vector".data [⟨"l".data, "u".data⟩] (by decide)

/-- C4 counterexample: an anchor whose href is literally the symbol index
page's own path (`SYMBOL_INDEX_PATH`, the relative form) is NOT rejected:
the normalizer re-roots the relative href under `/w/cpp/`, the result
`w/cpp/w/cpp/symbol_index.html` escapes the `w/cpp/symbol_index` prefix
guard, and extraction produces an entry from that anchor. -/
theorem claim4_counterexample :
    parse_symbol_index
        [.starttag "a".data [("href".data, some SYMBOL_INDEX_PATH)],
         .data "Symbol index".data, .endtag "a".data]
      = [⟨"Symbol index".data,
          [⟨"Symbol index".data, "w/cpp/w/cpp/symbol_index.html".data⟩]⟩]
    ∧ parse_symbol_index
        [.starttag "a".data [("href".data, some SYMBOL_INDEX_PATH)],
         .data "Symbol index".data, .endtag "a".data] ≠ [] := ⟨by decide, by decide⟩

/-- C4 (amended): the rejection is keyed on the NORMALIZED href, not the raw
one.  Closing an anchor whose normalized href starts with
`w/cpp/symbol_index` discards it — the state keeps its entries and all
pending fields are cleared — and consequently no extracted option ever
carries a `w/cpp/symbol_index`-prefixed url.  (An anchor with the bare
relative href `w/cpp/symbol_index.html` is re-rooted by the normalizer and
is NOT caught by this guard — see the counterexample.) -/
theorem claim4_amended :
    (∀ (s : ParserState) (href n : Str), s.current_href = some href →
        normalize_href href = some n →
        startsWith n ("w/cpp/symbol_index".data) = true →
        handle_endtag "a".data s
          = clearPending { s with current_href := none, current_text_parts := [] })
    ∧ ∀ (evs : List Event), ∀ e ∈ parse_symbol_index evs, ∀ o ∈ e.options,
        startsWith o.url ("w/cpp/symbol_index".data) = false := by
  constructor
  · intro s href n hhref hnorm hsw
    rw [handle_endtag, if_neg (fun hc => hc rfl), hhref]
    dsimp only
    rw [hnorm]
    dsimp only
    rw [if_pos (Or.inr (Or.inr hsw))]
  · intro evs e he o ho
    exact (((parse_symbol_index_ok evs).2 e he).2.2 o ho).2.2

/-- Witness for C4 (amended): closing an anchor whose href normalizes to the
index page's own path drops it and clears the pending fields. -/
theorem claim4_witness :
    handle_endtag "a".data
        { initState with current_href := some "/w/cpp/symbol_index.html".data,
                         current_text_parts := ["Symbol index".data] }
      = clearPending { { initState with
            current_href := some "/w/cpp/symbol_index.html".data,
            current_text_parts := ["Symbol index".data] } with
          current_href := none, current_text_parts := [] } :=
  claim4_amended.1 _ "/w/cpp/symbol_index.html".data "w/cpp/symbol_index.html".data
    rfl (by decide) (by decide)


end Cppref
